import Mathlib

/-!
# WinMinimizer: window classification, inventory and ordered restoration

A shallow embedding of the core of `src/WinMinimizer.cpp`:
`IsSystemWindow`, `IsValidAppWindow`, `CompareZOrder`, `EnumWindowsProc`,
`MinimizeForScreenshot` and `RestoreWindows`.

The operating system is an abstract state `σ` together with a record `WinAPI σ`
of the Win32 calls the program makes.  Queries read the state, `ShowWindow`,
`SetWindowPlacement` and `Sleep` return the next state.  Nothing is assumed
about what the OS answers unless a theorem says so in a hypothesis.
-/

namespace WinMinimizer

/-! ## Data model -/

/-- A window handle.  `NULL` is `0`. -/
abbrev HWND := Nat

/-- The null handle. -/
def NULL : HWND := 0

/-- A `std::wstring`: a sequence of UTF-16 code units. -/
abbrev WString := List Nat

/-- The code units of a wide string literal whose characters all lie in the
basic multilingual plane (true of every literal of the program). -/
def L (s : String) : WString := s.toList.map Char.toNat

/-- The value a 32-bit signed integer holds for the mathematical result `x`:
two's-complement wrap-around. -/
def toInt32 (x : Int) : Int := (x + 2147483648) % 4294967296 - 2147483648

/-- A Win32 `LONG`: a 32-bit signed integer. -/
abbrev LONG : Type := { x : Int // -2147483648 ≤ x ∧ x ≤ 2147483647 }

/-- The `LONG` an integer converts to. -/
def LONG.ofInt (x : Int) : LONG := ⟨toInt32 x, by unfold toInt32; omega⟩

/-- The Win32 `RECT`. -/
structure RECT where
  left : LONG
  top : LONG
  right : LONG
  bottom : LONG
deriving DecidableEq, Repr

/-- The Win32 `POINT`. -/
structure POINT where
  x : LONG
  y : LONG
deriving DecidableEq, Repr

/-- The Win32 `WINDOWPLACEMENT` snapshot. -/
structure WINDOWPLACEMENT where
  length : Nat
  flags : Nat
  showCmd : Nat
  ptMinPosition : POINT
  ptMaxPosition : POINT
  rcNormalPosition : RECT
deriving DecidableEq, Repr

/-- The record `struct WindowInfo` (lines 12-17). -/
structure WindowInfo where
  hWnd : HWND
  wp : WINDOWPLACEMENT
  className : WString
  title : WString
deriving DecidableEq, Repr

/-! ### Win32 constants (values of `winuser.h`) -/

def GWL_STYLE : Int := -16
def GWL_EXSTYLE : Int := -20
def WS_CHILD : Nat := 0x40000000
def WS_EX_TOOLWINDOW : Nat := 0x00000080
def WS_EX_NOACTIVATE : Nat := 0x08000000
def GW_HWNDNEXT : Nat := 2
def GW_OWNER : Nat := 4
def SM_CXSCREEN : Nat := 0
def SM_CYSCREEN : Nat := 1
def SW_MINIMIZE : Nat := 6

/-- The Win32 calls made by the program, over an abstract OS state `σ`.
`GetWindowLong` returns the 32-bit pattern of the `LONG`; `GetClassName` and
`GetWindowText` return the string left in the caller's buffer of the given
size. -/
structure WinAPI (σ : Type) where
  IsWindow : σ → HWND → Bool
  IsWindowVisible : σ → HWND → Bool
  GetWindowLong : σ → HWND → Int → Nat
  GetWindow : σ → HWND → Nat → HWND
  GetWindowRect : σ → HWND → RECT
  GetSystemMetrics : σ → Nat → Int
  GetClassName : σ → HWND → Nat → WString
  GetWindowText : σ → HWND → Nat → WString
  GetWindowPlacement : σ → HWND → WINDOWPLACEMENT
  ShowWindow : σ → HWND → Nat → σ
  SetWindowPlacement : σ → HWND → WINDOWPLACEMENT → σ
  Sleep : σ → Nat → σ

/-- The program's globals (`windowList`, `g_hMainWnd`) next to the OS state. -/
structure State (σ : Type) where
  os : σ
  windowList : List WindowInfo
  g_hMainWnd : HWND

/-! ## Denylists (lines 48-72) -/

/-- The class-name denylist, lines 48-64. -/
def SYSTEM_WINDOW_CLASSES : List WString :=
  [ L "WorkerW", L "Progman", L "Shell_TrayWnd", L "Button", L "Static", L "Edit",
    L "ComboBox", L "ListBox", L "SysListView32", L "SysTreeView32",
    L "ToolbarWindow32", L "MSCTFIME UI", L "IME", L "Shell_ChromeWindow",
    L "Windows.UI.Core.CoreWindow" ]

/-- The title denylist, lines 67-72. -/
def SYSTEM_WINDOW_TITLES : List WString :=
  [ L "Program Manager", L "Default IME", L "MSCTFIME UI", L "桌面" ]

/-! ## `std::wstring::find` -/

/-- The search loop of `find`: the lowest position at or after `pos` where `sub`
starts, `none` for `npos`. -/
def wfindFrom (sub : WString) : WString → Nat → Option Nat
  | [], pos => if sub = [] then some pos else none
  | c :: cs, pos =>
    if sub.isPrefixOf (c :: cs) then some pos else wfindFrom sub cs (pos + 1)

/-- The call `s.find(sub)`: position of the first occurrence, `none` for `npos`. -/
def wfind (s sub : WString) : Option Nat := wfindFrom sub s 0

/-! ## Window classifier (lines 74-136) -/

/-- The function `IsSystemWindow`, lines 74-105. -/
def IsSystemWindow {σ : Type} (api : WinAPI σ) (s : σ) (hWnd : HWND)
    (className title : WString) : Bool :=
  if SYSTEM_WINDOW_CLASSES.any (fun sysClass => wfind className sysClass != none) then true
  else if SYSTEM_WINDOW_TITLES.any (fun sysTitle => wfind title sysTitle != none) then true
  else
    let style := api.GetWindowLong s hWnd GWL_STYLE
    let exStyle := api.GetWindowLong s hWnd GWL_EXSTYLE
    if style &&& WS_CHILD != 0 || exStyle &&& WS_EX_TOOLWINDOW != 0
        || exStyle &&& WS_EX_NOACTIVATE != 0 then true
    else if api.GetWindow s hWnd GW_OWNER != NULL then true
    else false

/-- The function `IsValidAppWindow`, lines 107-136.  `width` and `height` are
32-bit `int`s: the differences of the `LONG` coordinates wrap around. -/
def IsValidAppWindow {σ : Type} (api : WinAPI σ) (s : σ) (g_hMainWnd hWnd : HWND)
    (className title : WString) : Bool :=
  if !api.IsWindowVisible s hWnd || hWnd == g_hMainWnd then false
  else if IsSystemWindow api s hWnd className title then false
  else
    let rect := api.GetWindowRect s hWnd
    let width := toInt32 (rect.right.val - rect.left.val)
    let height := toInt32 (rect.bottom.val - rect.top.val)
    if width < 100 || height < 50 then false
    else if rect.right.val ≤ 0 || rect.bottom.val ≤ 0
        || rect.left.val ≥ api.GetSystemMetrics s SM_CXSCREEN
        || rect.top.val ≥ api.GetSystemMetrics s SM_CYSCREEN then false
    else true

/-! ## Z-order comparator (lines 138-149) -/

/-- The `while` loop of `CompareZOrder`, lines 142-147.  One unit of fuel pays
for one evaluation of the loop condition; `none` means the fuel ran out. -/
def CompareZOrder.loop {σ : Type} (api : WinAPI σ) (s : σ) (hWnd2 : HWND) :
    Nat → HWND → Option Bool
  | 0, _ => none
  | fuel + 1, hWndAbove =>
    if hWndAbove != NULL then
      if hWndAbove == hWnd2 then some false
      else CompareZOrder.loop api s hWnd2 fuel (api.GetWindow s hWndAbove GW_HWNDNEXT)
    else some true

/-- The function `CompareZOrder`, lines 139-149. -/
def CompareZOrder {σ : Type} (api : WinAPI σ) (s : σ) (fuel : Nat) (hWnd1 hWnd2 : HWND) :
    Option Bool :=
  CompareZOrder.loop api s hWnd2 fuel (api.GetWindow s hWnd1 GW_HWNDNEXT)

/-- The windows met on the walk that starts just below `h` and follows
`GW_HWNDNEXT` until `NULL`, at most `n` steps of it. -/
def walkBelow {σ : Type} (api : WinAPI σ) (s : σ) : Nat → HWND → List HWND
  | 0, _ => []
  | n + 1, h =>
    if api.GetWindow s h GW_HWNDNEXT = NULL then []
    else api.GetWindow s h GW_HWNDNEXT :: walkBelow api s n (api.GetWindow s h GW_HWNDNEXT)

/-- The chain below `h` is finite and acyclic: following `GW_HWNDNEXT` from `h`
reaches `NULL` after at most `n` steps. -/
def chainEndsWithin {σ : Type} (api : WinAPI σ) (s : σ) : Nat → HWND → Bool
  | 0, _ => false
  | n + 1, h =>
    api.GetWindow s h GW_HWNDNEXT == NULL
      || chainEndsWithin api s n (api.GetWindow s h GW_HWNDNEXT)

/-- The list `zs` is a whole window chain, top to bottom: every entry is a
non-null handle, `GW_HWNDNEXT` of each entry is the next entry, and of the
last is `NULL`. -/
def IsZChain {σ : Type} (api : WinAPI σ) (s : σ) : List HWND → Bool
  | [] => true
  | [a] => a != NULL && api.GetWindow s a GW_HWNDNEXT == NULL
  | a :: b :: rest =>
    a != NULL && api.GetWindow s a GW_HWNDNEXT == b && IsZChain api s (b :: rest)

/-! ## Window inventory (lines 151-189) -/

/-- The callback `EnumWindowsProc`, lines 151-178.  The second component is the
returned `BOOL`.  `GetWindowPlacement` gives back the structure it filled in,
whose `length` the caller had set. -/
def EnumWindowsProc {σ : Type} (api : WinAPI σ) (st : State σ) (hWnd : HWND) :
    State σ × Bool :=
  let clsName := api.GetClassName st.os hWnd 256
  let windowTitle := api.GetWindowText st.os hWnd 256
  if !IsValidAppWindow api st.os st.g_hMainWnd hWnd clsName windowTitle then (st, true)
  else
    let info : WindowInfo :=
      { hWnd := hWnd, className := clsName, title := windowTitle,
        wp := api.GetWindowPlacement st.os hWnd }
    ({ st with
        windowList := st.windowList ++ [info],
        os := api.ShowWindow st.os hWnd SW_MINIMIZE }, true)

/-- The call `EnumWindows(lpEnumFunc, 0)`: the OS hands the top-level windows
`enumerated` to the callback one by one and stops when it returns `FALSE`. -/
def EnumWindows {σ : Type} (lpEnumFunc : State σ → HWND → State σ × Bool) :
    List HWND → State σ → State σ
  | [], st => st
  | hWnd :: rest, st =>
    match lpEnumFunc st hWnd with
    | (st1, true) => EnumWindows lpEnumFunc rest st1
    | (st1, false) => st1

/-- The function `MinimizeForScreenshot`, lines 180-189. -/
def MinimizeForScreenshot {σ : Type} (api : WinAPI σ) (enumerated : List HWND)
    (st : State σ) : State σ :=
  EnumWindows (EnumWindowsProc api) enumerated { st with windowList := [] }

/-- What a visit does to the OS: a window that qualifies in state `s` is
minimized, any other is left alone. -/
def visitStep {σ : Type} (api : WinAPI σ) (g_hMainWnd : HWND) (s : σ) (h : HWND) : σ :=
  if IsValidAppWindow api s g_hMainWnd h (api.GetClassName s h 256) (api.GetWindowText s h 256)
  then api.ShowWindow s h SW_MINIMIZE else s

/-- The OS state in which the window at position `i` of the enumeration is
visited: every earlier window that qualified in its own turn has been
minimized. -/
def osAtVisit {σ : Type} (api : WinAPI σ) (g_hMainWnd : HWND) (os : σ)
    (enumerated : List HWND) (i : Nat) : σ :=
  (enumerated.take i).foldl (visitStep api g_hMainWnd) os

/-- The record the specification describes for a window visited in OS state
`s`: its handle with the placement, class name and title read in `s`. -/
def recordAt {σ : Type} (api : WinAPI σ) (s : σ) (h : HWND) : WindowInfo :=
  { hWnd := h, wp := api.GetWindowPlacement s h,
    className := api.GetClassName s h 256, title := api.GetWindowText s h 256 }

/-- The inventory the specification describes: going through the positions of the
enumeration in order, one record for each window that is a valid application
window in the OS state in which it is visited, with the placement read in that
state. -/
def expectedInventory {σ : Type} (api : WinAPI σ) (g_hMainWnd : HWND) (os : σ)
    (enumerated : List HWND) : List WindowInfo :=
  (List.range enumerated.length).filterMap fun i =>
    match enumerated[i]? with
    | none => none
    | some h =>
      if IsValidAppWindow api (osAtVisit api g_hMainWnd os enumerated i) g_hMainWnd h
          (api.GetClassName (osAtVisit api g_hMainWnd os enumerated i) h 256)
          (api.GetWindowText (osAtVisit api g_hMainWnd os enumerated i) h 256)
      then some (recordAt api (osAtVisit api g_hMainWnd os enumerated i) h)
      else none

/-! ## Restorer (lines 191-206) -/

/-- Every earlier element of the list compares before every later one, and no
later one before an earlier: `comp` puts the elements in this strict total
order. -/
def strictlyOrdered {α : Type} (comp : α → α → Option Bool) : List α → Bool
  | [] => true
  | x :: rest =>
    rest.all (fun y => comp x y == some true && comp y x == some false)
      && strictlyOrdered comp rest

/-! ### The GNU `std::sort` (`bits/stl_algo.h`, `bits/stl_heap.h` of GCC 12)

Iterators are positions in the vector; a read outside the vector is `none`. -/

/-- The call `std::iter_swap(i, j)`; `none` when either position is outside
the vector. -/
def iterSwap {α : Type} (a : List α) (i j : Nat) : Option (List α) :=
  match a[i]?, a[j]? with
  | some x, some y => some ((a.set i y).set j x)
  | _, _ => none

/-- The loop of `__unguarded_linear_insert` (stl_algo.h 1789-1795): the hole is
at `next + 1`; `none` when `next` has stepped before the vector. -/
def unguardedLinearInsert.loop {α : Type} (comp : α → α → Option Bool) (val : α) :
    Nat → List α → Option (List α)
  | 0, _ => none
  | next + 1, a =>
    match a[next]? with
    | none => none
    | some x =>
      match comp val x with
      | none => none
      | some true => unguardedLinearInsert.loop comp val next (a.set (next + 1) x)
      | some false => some (a.set (next + 1) val)

/-- The function `__unguarded_linear_insert(last, comp)`. -/
def unguardedLinearInsert {α : Type} (comp : α → α → Option Bool) (a : List α) (last : Nat) :
    Option (List α) :=
  match a[last]? with
  | none => none
  | some val => unguardedLinearInsert.loop comp val last a

/-- The loop of `__insertion_sort` (stl_algo.h 1807-1819) with `n` rounds left,
the next one at position `i`. -/
def insertionSort.loop {α : Type} (comp : α → α → Option Bool) (first : Nat) :
    Nat → Nat → List α → Option (List α)
  | 0, _, a => some a
  | n + 1, i, a =>
    match a[i]?, a[first]? with
    | some val, some x =>
      match comp val x with
      | none => none
      | some true =>
        insertionSort.loop comp first n (i + 1)
          (a.take first ++ val :: ((a.drop first).take (i - first) ++ a.drop (i + 1)))
      | some false =>
        match unguardedLinearInsert comp a i with
        | none => none
        | some a1 => insertionSort.loop comp first n (i + 1) a1
    | _, _ => none

/-- The function `__insertion_sort(first, last, comp)`. -/
def insertionSort {α : Type} (comp : α → α → Option Bool) (a : List α) (first last : Nat) :
    Option (List α) :=
  if first = last then some a
  else insertionSort.loop comp first (last - (first + 1)) (first + 1) a

/-- The function `__unguarded_insertion_sort(first, last, comp)` with `n`
rounds left, the next one at position `i`. -/
def unguardedInsertionSort {α : Type} (comp : α → α → Option Bool) :
    Nat → Nat → List α → Option (List α)
  | 0, _, a => some a
  | n + 1, i, a =>
    match unguardedLinearInsert comp a i with
    | none => none
    | some a1 => unguardedInsertionSort comp n (i + 1) a1

/-- The function `__final_insertion_sort(first, last, comp)`. -/
def finalInsertionSort {α : Type} (comp : α → α → Option Bool) (a : List α)
    (first last : Nat) : Option (List α) :=
  if last - first > 16 then
    match insertionSort comp a first (first + 16) with
    | none => none
    | some a1 => unguardedInsertionSort comp (last - (first + 16)) (first + 16) a1
  else insertionSort comp a first last

/-- The function `__move_median_to_first(result, a, b, c, comp)`. -/
def moveMedianToFirst {α : Type} (comp : α → α → Option Bool) (a : List α)
    (result ia ib ic : Nat) : Option (List α) :=
  match a[ia]?, a[ib]?, a[ic]? with
  | some x, some y, some z =>
    match comp x y with
    | none => none
    | some true =>
      match comp y z with
      | none => none
      | some true => iterSwap a result ib
      | some false =>
        match comp x z with
        | none => none
        | some true => iterSwap a result ic
        | some false => iterSwap a result ia
    | some false =>
      match comp x z with
      | none => none
      | some true => iterSwap a result ia
      | some false =>
        match comp y z with
        | none => none
        | some true => iterSwap a result ic
        | some false => iterSwap a result ib
  | _, _, _ => none

/-- The first inner loop of `__unguarded_partition`: `first` moves up while the
element there compares before the pivot; `none` past the end of the vector. -/
def unguardedPartition.up {α : Type} (comp : α → α → Option Bool) (a : List α) (pivot : Nat) :
    Nat → Nat → Option Nat
  | 0, _ => none
  | fuel + 1, first =>
    match a[first]?, a[pivot]? with
    | some x, some p =>
      match comp x p with
      | none => none
      | some true => unguardedPartition.up comp a pivot fuel (first + 1)
      | some false => some first
    | _, _ => none

/-- The step `--last` and the second inner loop of `__unguarded_partition`:
`last` moves down while the pivot compares before the element there; `none`
before the start of the vector. -/
def unguardedPartition.down {α : Type} (comp : α → α → Option Bool) (a : List α)
    (pivot : Nat) : Nat → Option Nat
  | 0 => none
  | last + 1 =>
    match a[last]?, a[pivot]? with
    | some x, some p =>
      match comp p x with
      | none => none
      | some true => unguardedPartition.down comp a pivot last
      | some false => some last
    | _, _ => none

/-- The outer loop of `__unguarded_partition` (stl_algo.h 1866-1877). -/
def unguardedPartition.loop {α : Type} (comp : α → α → Option Bool) (pivot : Nat) :
    Nat → Nat → Nat → List α → Option (List α × Nat)
  | 0, _, _, _ => none
  | fuel + 1, first, last, a =>
    match unguardedPartition.up comp a pivot (a.length + 1) first with
    | none => none
    | some first1 =>
      match unguardedPartition.down comp a pivot last with
      | none => none
      | some last1 =>
        if ¬ first1 < last1 then some (a, first1)
        else
          match iterSwap a first1 last1 with
          | none => none
          | some a1 => unguardedPartition.loop comp pivot fuel (first1 + 1) last1 a1

/-- The function `__unguarded_partition(first, last, pivot, comp)`: the array
after the swaps and the cut. -/
def unguardedPartition {α : Type} (comp : α → α → Option Bool) (a : List α)
    (first last pivot : Nat) : Option (List α × Nat) :=
  unguardedPartition.loop comp pivot (a.length + 1) first last a

/-- The function `__unguarded_partition_pivot(first, last, comp)`. -/
def unguardedPartitionPivot {α : Type} (comp : α → α → Option Bool) (a : List α)
    (first last : Nat) : Option (List α × Nat) :=
  match moveMedianToFirst comp a first (first + 1) (first + (last - first) / 2) (last - 1) with
  | none => none
  | some a1 => unguardedPartition comp a1 (first + 1) last first

/-- The function `__push_heap(first, holeIndex, topIndex, value, comp)`
(stl_heap.h 135-148). -/
def pushHeap {α : Type} (comp : α → α → Option Bool) (first topIndex : Nat) (value : α) :
    Nat → Nat → List α → Option (List α)
  | 0, _, _ => none
  | fuel + 1, holeIndex, a =>
    if holeIndex > topIndex then
      match a[first + (holeIndex - 1) / 2]? with
      | none => none
      | some p =>
        match comp p value with
        | none => none
        | some true =>
          pushHeap comp first topIndex value fuel ((holeIndex - 1) / 2)
            (a.set (first + holeIndex) p)
        | some false => some (a.set (first + holeIndex) value)
    else some (a.set (first + holeIndex) value)

/-- The first loop of `__adjust_heap` (stl_heap.h 229-237): the hole sinks to
the larger child; the array and the final `holeIndex` (equal to `secondChild`
there). -/
def adjustHeap.sink {α : Type} (comp : α → α → Option Bool) (first len : Nat) :
    Nat → Nat → List α → Option (List α × Nat)
  | 0, _, _ => none
  | fuel + 1, holeIndex, a =>
    if holeIndex < (len - 1) / 2 then
      match a[first + 2 * (holeIndex + 1)]?, a[first + (2 * (holeIndex + 1) - 1)]? with
      | some r, some l =>
        match comp r l with
        | none => none
        | some true =>
          adjustHeap.sink comp first len fuel (2 * (holeIndex + 1) - 1)
            (a.set (first + holeIndex) l)
        | some false =>
          adjustHeap.sink comp first len fuel (2 * (holeIndex + 1))
            (a.set (first + holeIndex) r)
      | _, _ => none
    else some (a, holeIndex)

/-- The function `__adjust_heap(first, holeIndex, len, value, comp)`. -/
def adjustHeap {α : Type} (comp : α → α → Option Bool) (a : List α)
    (first holeIndex len : Nat) (value : α) : Option (List α) :=
  match adjustHeap.sink comp first len (len + 1) holeIndex a with
  | none => none
  | some (a1, hole1) =>
    if len % 2 = 0 ∧ hole1 = (len - 2) / 2 then
      match a1[first + (2 * (hole1 + 1) - 1)]? with
      | none => none
      | some l =>
        pushHeap comp first holeIndex value (len + 1) (2 * (hole1 + 1) - 1)
          (a1.set (first + hole1) l)
    else pushHeap comp first holeIndex value (len + 1) hole1 a1

/-- The loop of `__make_heap` (stl_heap.h 351-359), `parent` counting down. -/
def makeHeap.loop {α : Type} (comp : α → α → Option Bool) (first len : Nat) :
    Nat → List α → Option (List α)
  | parent, a =>
    match a[first + parent]? with
    | none => none
    | some value =>
      match adjustHeap comp a first parent len value with
      | none => none
      | some a1 =>
        match parent with
        | 0 => some a1
        | p + 1 => makeHeap.loop comp first len p a1

/-- The function `__make_heap(first, last, comp)`. -/
def makeHeap {α : Type} (comp : α → α → Option Bool) (a : List α) (first last : Nat) :
    Option (List α) :=
  if last - first < 2 then some a
  else makeHeap.loop comp first (last - first) ((last - first - 2) / 2) a

/-- The function `__pop_heap(first, last, result, comp)`. -/
def popHeap {α : Type} (comp : α → α → Option Bool) (a : List α) (first last result : Nat) :
    Option (List α) :=
  match a[result]?, a[first]? with
  | some value, some top => adjustHeap comp (a.set result top) first 0 (last - first) value
  | _, _ => none

/-- The loop of `__heap_select` (stl_algo.h 1630-1632) with `n` positions left,
the next one `i`. -/
def heapSelect.loop {α : Type} (comp : α → α → Option Bool) (first middle : Nat) :
    Nat → Nat → List α → Option (List α)
  | 0, _, a => some a
  | n + 1, i, a =>
    match a[i]?, a[first]? with
    | some x, some top =>
      match comp x top with
      | none => none
      | some true =>
        match popHeap comp a first middle i with
        | none => none
        | some a1 => heapSelect.loop comp first middle n (i + 1) a1
      | some false => heapSelect.loop comp first middle n (i + 1) a
    | _, _ => none

/-- The function `__sort_heap(first, last, comp)`, by the length of the heap. -/
def sortHeap {α : Type} (comp : α → α → Option Bool) (first : Nat) :
    Nat → List α → Option (List α)
  | 0, a => some a
  | len + 1, a =>
    if len + 1 > 1 then
      match popHeap comp a first (first + len) (first + len) with
      | none => none
      | some a1 => sortHeap comp first len a1
    else some a

/-- The function `__partial_sort(first, middle, last, comp)`. -/
def partialSort {α : Type} (comp : α → α → Option Bool) (a : List α)
    (first middle last : Nat) : Option (List α) :=
  match makeHeap comp a first middle with
  | none => none
  | some a1 =>
    match heapSelect.loop comp first middle (last - middle) middle a1 with
    | none => none
    | some a2 => sortHeap comp first (middle - first) a2

/-- The function `__introsort_loop(first, last, depth_limit, comp)`
(stl_algo.h 1908-1925); every turn of its loop lowers `depth_limit`. -/
def introsortLoop {α : Type} (comp : α → α → Option Bool) :
    Nat → Nat → Nat → List α → Option (List α)
  | 0, first, last, a =>
    if last - first > 16 then partialSort comp a first last last else some a
  | depth + 1, first, last, a =>
    if last - first > 16 then
      match unguardedPartitionPivot comp a first last with
      | none => none
      | some (a1, cut) =>
        match introsortLoop comp depth cut last a1 with
        | none => none
        | some a2 => introsortLoop comp depth first cut a2
    else some a

/-- The function `std::__lg(n)`: the position of the highest set bit, with
`fuel` at least `n`. -/
def lg : Nat → Nat → Nat
  | 0, _ => 0
  | fuel + 1, n => if n ≤ 1 then 0 else lg fuel (n / 2) + 1

/-- The function `__sort(first, last, comp)` of the GNU library
(stl_algo.h 1932-1942) on the whole vector; `none` when it reads outside the
vector or a comparison does not return. -/
def gnuSort {α : Type} (comp : α → α → Option Bool) (a : List α) : Option (List α) :=
  if a.length = 0 then some a
  else
    match introsortLoop comp (lg a.length a.length * 2) 0 a.length a with
    | none => none
    | some a1 => finalInsertionSort comp a1 0 a.length

/-- The library call `std::sort(first, last, comp)` of line 193, as the GNU
library runs it.  `none` when a comparison does not return or the sort reads
outside the vector. -/
def stdSort {α : Type} (comp : α → α → Option Bool) (l : List α) : Option (List α) :=
  gnuSort comp l

/-- The comparator orders the elements of `S` by the rank `rk`, one to one. -/
structure RankedBy {α : Type} (comp : α → α → Option Bool) (rk : α → Nat) (S : List α) :
    Prop where
  nodup : S.Nodup
  inj : ∀ x ∈ S, ∀ y ∈ S, rk x = rk y → x = y
  cmp : ∀ x ∈ S, ∀ y ∈ S, x ≠ y → comp x y = some (decide (rk x < rk y))

/-- The root of the heap is larger than some other element of the heap. -/
def RootAbove {α : Type} (rk : α → Nat) (a : List α) (first len : Nat) : Prop :=
  ∃ j x r, 0 < j ∧ j < len ∧ a[first]? = some r ∧ a[first + j]? = some x ∧ rk x < rk r

/-- The `for` loop of `RestoreWindows`, lines 198-203. -/
def restoreLoop {σ : Type} (api : WinAPI σ) : σ → List WindowInfo → σ
  | s, [] => s
  | s, info :: rest =>
    if api.IsWindow s info.hWnd then
      restoreLoop api (api.Sleep (api.SetWindowPlacement s info.hWnd info.wp) 30) rest
    else restoreLoop api s rest

/-- The function `RestoreWindows`, lines 191-206.  `none` when the sort does not
return, so that the loop and the final `clear` are never reached. -/
def RestoreWindows {σ : Type} (api : WinAPI σ) (fuel : Nat) (st : State σ) :
    Option (State σ) :=
  match stdSort (fun a b => CompareZOrder api st.os fuel a.hWnd b.hWnd) st.windowList with
  | none => none
  | some sorted =>
    some { st with os := restoreLoop api st.os sorted, windowList := [] }

/-- The effect of re-applying one record: `SetWindowPlacement` then `Sleep(30)`. -/
def applyPlacement {σ : Type} (api : WinAPI σ) (s : σ) (info : WindowInfo) : σ :=
  api.Sleep (api.SetWindowPlacement s info.hWnd info.wp) 30

/-- The comparator has settled the pair: it places `a` above `b`, answering
false for `(a, b)` and true for `(b, a)`. -/
def Settled {σ : Type} (api : WinAPI σ) (s : σ) (fuel : Nat) (a b : HWND) : Prop :=
  CompareZOrder api s fuel a b = some false ∧ CompareZOrder api s fuel b a = some true

/-- Applying a placement or sleeping neither creates nor destroys a window. -/
def LivenessStable {σ : Type} (api : WinAPI σ) : Prop :=
  (∀ s h wp h2, api.IsWindow (api.SetWindowPlacement s h wp) h2 = api.IsWindow s h2)
    ∧ (∀ s n h2, api.IsWindow (api.Sleep s n) h2 = api.IsWindow s h2)

/-! ## A three-window desktop for the worked examples -/

/-- A test desktop: the log of placement calls issued so far and the windows
that have been minimized. -/
structure Desk where
  placed : List (HWND × WINDOWPLACEMENT)
  minimized : List HWND
deriving DecidableEq, Repr

/-- A placement with the given show command and normal rectangle. -/
def mkPlacement (showCmd : Nat) (r : RECT) : WINDOWPLACEMENT :=
  { length := 44, flags := 0, showCmd := showCmd,
    ptMinPosition := ⟨LONG.ofInt (-1), LONG.ofInt (-1)⟩,
    ptMaxPosition := ⟨LONG.ofInt (-1), LONG.ofInt (-1)⟩, rcNormalPosition := r }

/-- Rectangles of the test desktop: window 1 is 300 by 200, window 2 is 50 by
50, window 3 is 120 by 60, any other window 400 by 300. -/
def deskRect (h : HWND) : RECT :=
  if h = 1 then ⟨LONG.ofInt 10, LONG.ofInt 10, LONG.ofInt 310, LONG.ofInt 210⟩
  else if h = 2 then ⟨LONG.ofInt 20, LONG.ofInt 20, LONG.ofInt 70, LONG.ofInt 70⟩
  else if h = 3 then ⟨LONG.ofInt 30, LONG.ofInt 30, LONG.ofInt 150, LONG.ofInt 90⟩
  else ⟨LONG.ofInt 0, LONG.ofInt 0, LONG.ofInt 400, LONG.ofInt 300⟩

/-- The test desktop API.  Windows 1, 2, 3 are stacked top to bottom; window 3
is owned by window 9 when `owned3` is set; the windows in `closed` are gone:
they are not windows and have no neighbours. -/
def deskApi (owned3 : Bool) (closed : List HWND) : WinAPI Desk where
  IsWindow := fun _ h => (h == 1 || h == 2 || h == 3) && !closed.contains h
  IsWindowVisible := fun d h => (h == 1 || h == 2 || h == 3) && !d.minimized.contains h
  GetWindowLong := fun _ _ _ => 0
  GetWindow := fun _ h cmd =>
    if closed.contains h then 0
    else if cmd = GW_HWNDNEXT then (if h = 1 then 2 else if h = 2 then 3 else 0)
    else if cmd = GW_OWNER then (if h = 3 && owned3 then 9 else 0)
    else 0
  GetWindowRect := fun _ h => deskRect h
  GetSystemMetrics := fun _ i => if i = SM_CXSCREEN then 1920 else 1080
  GetClassName := fun _ h _ => if h = 1 then L "Notepad" else L "AppFrame"
  GetWindowText := fun _ _ _ => L "Untitled"
  GetWindowPlacement := fun _ h => mkPlacement 1 (deskRect h)
  ShowWindow := fun d h _ => { d with minimized := h :: d.minimized }
  SetWindowPlacement := fun d h wp => { d with placed := d.placed ++ [(h, wp)] }
  Sleep := fun d _ => d

/-- The test desktop with every window 4000000000 wide: left edge at
-2000000000, right edge at 2000000000, 100 high. -/
def wideApi : WinAPI Desk :=
  { deskApi false [] with
    GetWindowRect := fun _ _ =>
      ⟨LONG.ofInt (-2000000000), LONG.ofInt 10, LONG.ofInt 2000000000, LONG.ofInt 110⟩ }

/-- The record captured for window `h` of the test desktop. -/
def deskInfo (h : HWND) : WindowInfo :=
  { hWnd := h, wp := mkPlacement 1 (deskRect h),
    className := if h = 1 then L "Notepad" else L "AppFrame", title := L "Untitled" }

theorem wfindFrom_ne_none_iff (sub s : WString) (pos : Nat) :
    wfindFrom sub s pos ≠ none ↔ sub <:+: s := by
  induction s generalizing pos with
  | nil =>
    by_cases h : sub = [] <;> simp [wfindFrom, h]
  | cons c cs ih =>
    rw [wfindFrom, List.infix_cons_iff]
    by_cases hp : sub.isPrefixOf (c :: cs) = true
    · have hp2 : sub <+: c :: cs := List.isPrefixOf_iff_prefix.mp hp
      simp [hp, hp2]
    · have hp2 : ¬ sub <+: c :: cs := fun h => hp (List.isPrefixOf_iff_prefix.mpr h)
      simp only [hp, hp2, false_or]
      exact ih (pos + 1)

theorem wfind_ne_none_iff (s sub : WString) : wfind s sub ≠ none ↔ sub <:+: s :=
  wfindFrom_ne_none_iff sub s 0

theorem denylist_any_iff (names : List WString) (s : WString) :
    names.any (fun e => wfind s e != none) = true ↔ ∃ e ∈ names, e <:+: s := by
  simp only [List.any_eq_true, bne_iff_ne]
  constructor
  · rintro ⟨e, he, h⟩
    exact ⟨e, he, (wfind_ne_none_iff s e).mp h⟩
  · rintro ⟨e, he, h⟩
    exact ⟨e, he, (wfind_ne_none_iff s e).mpr h⟩

theorem IsSystemWindow_eq_true_iff {σ : Type} (api : WinAPI σ) (s : σ) (hWnd : HWND)
    (className title : WString) :
    IsSystemWindow api s hWnd className title = true ↔
      (∃ e ∈ SYSTEM_WINDOW_CLASSES, e <:+: className)
      ∨ (∃ e ∈ SYSTEM_WINDOW_TITLES, e <:+: title)
      ∨ api.GetWindowLong s hWnd GWL_STYLE &&& WS_CHILD ≠ 0
      ∨ api.GetWindowLong s hWnd GWL_EXSTYLE &&& WS_EX_TOOLWINDOW ≠ 0
      ∨ api.GetWindowLong s hWnd GWL_EXSTYLE &&& WS_EX_NOACTIVATE ≠ 0
      ∨ api.GetWindow s hWnd GW_OWNER ≠ NULL := by
  rw [← denylist_any_iff, ← denylist_any_iff]
  unfold IsSystemWindow
  by_cases h1 : SYSTEM_WINDOW_CLASSES.any (fun e => wfind className e != none) = true
  · simp [h1]
  by_cases h2 : SYSTEM_WINDOW_TITLES.any (fun e => wfind title e != none) = true
  · simp [h2]
  simp only [h1, h2, Bool.false_eq_true, if_false, false_or]
  by_cases h3 : api.GetWindowLong s hWnd GWL_STYLE &&& WS_CHILD = 0 <;>
  by_cases h4 : api.GetWindowLong s hWnd GWL_EXSTYLE &&& WS_EX_TOOLWINDOW = 0 <;>
  by_cases h5 : api.GetWindowLong s hWnd GWL_EXSTYLE &&& WS_EX_NOACTIVATE = 0 <;>
  by_cases h6 : api.GetWindow s hWnd GW_OWNER = NULL <;>
  simp [h3, h4, h5, h6]

/-- Claim C7: a window with the `WS_CHILD` style bit, the `WS_EX_TOOLWINDOW` or
`WS_EX_NOACTIVATE` extended-style bit, or a non-null owner is a system window,
for every class name and every title. -/
theorem IsSystemWindow_of_style_or_owner {σ : Type} (api : WinAPI σ) (s : σ) (hWnd : HWND)
    (className title : WString)
    (h : api.GetWindowLong s hWnd GWL_STYLE &&& WS_CHILD ≠ 0
      ∨ api.GetWindowLong s hWnd GWL_EXSTYLE &&& WS_EX_TOOLWINDOW ≠ 0
      ∨ api.GetWindowLong s hWnd GWL_EXSTYLE &&& WS_EX_NOACTIVATE ≠ 0
      ∨ api.GetWindow s hWnd GW_OWNER ≠ NULL) :
    IsSystemWindow api s hWnd className title = true :=
  (IsSystemWindow_eq_true_iff api s hWnd className title).mpr (Or.inr (Or.inr h))

/-- Witness for C7: window 3 of the test desktop is owned by window 9. -/
theorem IsSystemWindow_of_style_or_owner_witness :
    (deskApi true []).GetWindow ⟨[], []⟩ 3 GW_OWNER ≠ NULL
      ∧ IsSystemWindow (deskApi true []) ⟨[], []⟩ 3 (L "AppFrame") (L "Untitled") = true :=
  ⟨by decide,
    IsSystemWindow_of_style_or_owner (deskApi true []) ⟨[], []⟩ 3 (L "AppFrame") (L "Untitled")
      (Or.inr (Or.inr (Or.inr (by decide))))⟩

/-- Claim C8: a window whose class name equals a class-denylist entry, or
contains one as a substring, is a system window, whatever its title, style bits
and owner. -/
theorem IsSystemWindow_of_class_denylisted {σ : Type} (api : WinAPI σ) (s : σ) (hWnd : HWND)
    (className title entry : WString) (hentry : entry ∈ SYSTEM_WINDOW_CLASSES)
    (h : className = entry ∨ entry <:+: className) :
    IsSystemWindow api s hWnd className title = true := by
  refine (IsSystemWindow_eq_true_iff api s hWnd className title).mpr (Or.inl ⟨entry, hentry, ?_⟩)
  rcases h with h | h
  · exact h ▸ List.infix_refl className
  · exact h

/-- Witness for C8: the class name `MyButtonHost` contains the entry `Button`. -/
theorem IsSystemWindow_of_class_denylisted_witness :
    L "Button" ∈ SYSTEM_WINDOW_CLASSES
      ∧ (L "MyButtonHost" = L "Button" ∨ L "Button" <:+: L "MyButtonHost")
      ∧ IsSystemWindow (deskApi false []) ⟨[], []⟩ 1 (L "MyButtonHost") (L "Untitled") = true :=
  ⟨by decide, Or.inr (by decide),
    IsSystemWindow_of_class_denylisted (deskApi false []) ⟨[], []⟩ 1 (L "MyButtonHost")
      (L "Untitled") (L "Button") (by decide) (Or.inr (by decide))⟩

theorem toInt32_of_fits (x : Int) (h1 : -2147483648 ≤ x) (h2 : x ≤ 2147483647) :
    toInt32 x = x := by
  unfold toInt32
  omega

/-- The size and on-screen tests of lines 124-133 agree with the exact
differences as long as neither exceeds `INT_MAX`: a difference below `INT_MIN`
can only wrap to a large value when `right` or `bottom` is negative. -/
theorem size_tests_exact (l t r b : LONG) (cx cy : Int)
    (hw : r.val - l.val ≤ 2147483647) (hh : b.val - t.val ≤ 2147483647) :
    (100 ≤ toInt32 (r.val - l.val) ∧ 50 ≤ toInt32 (b.val - t.val)
        ∧ 0 < r.val ∧ 0 < b.val ∧ l.val < cx ∧ t.val < cy)
      ↔ (100 ≤ r.val - l.val ∧ 50 ≤ b.val - t.val
        ∧ 0 < r.val ∧ 0 < b.val ∧ l.val < cx ∧ t.val < cy) := by
  have hl := l.property
  have ht := t.property
  have hr := r.property
  have hb := b.property
  unfold toInt32
  constructor
  · rintro ⟨h1, h2, h3, h4, h5, h6⟩
    refine ⟨?_, ?_, h3, h4, h5, h6⟩ <;> omega
  · rintro ⟨h1, h2, h3, h4, h5, h6⟩
    refine ⟨?_, ?_, h3, h4, h5, h6⟩ <;> omega

theorem IsValidAppWindow_eq_true_iff_wrapped {σ : Type} (api : WinAPI σ) (s : σ)
    (g_hMainWnd hWnd : HWND) (className title : WString) :
    IsValidAppWindow api s g_hMainWnd hWnd className title = true ↔
      api.IsWindowVisible s hWnd = true ∧ hWnd ≠ g_hMainWnd
      ∧ IsSystemWindow api s hWnd className title = false
      ∧ 100 ≤ toInt32 ((api.GetWindowRect s hWnd).right.val - (api.GetWindowRect s hWnd).left.val)
      ∧ 50 ≤ toInt32 ((api.GetWindowRect s hWnd).bottom.val - (api.GetWindowRect s hWnd).top.val)
      ∧ 0 < (api.GetWindowRect s hWnd).right.val
      ∧ 0 < (api.GetWindowRect s hWnd).bottom.val
      ∧ (api.GetWindowRect s hWnd).left.val < api.GetSystemMetrics s SM_CXSCREEN
      ∧ (api.GetWindowRect s hWnd).top.val < api.GetSystemMetrics s SM_CYSCREEN := by
  unfold IsValidAppWindow
  cases hv : api.IsWindowVisible s hWnd <;>
  cases hsw : IsSystemWindow api s hWnd className title <;>
  by_cases hm : hWnd = g_hMainWnd <;>
  simp [hm, not_lt, not_le]
  tauto

/-- Claim C6: a window whose bounding rectangle is narrower than 100 or lower
than 50 is never a valid application window, whatever its visibility, class
name, title, style bits, owner and position. -/
theorem IsValidAppWindow_false_of_small {σ : Type} (api : WinAPI σ) (s : σ)
    (g_hMainWnd hWnd : HWND) (className title : WString)
    (h : (api.GetWindowRect s hWnd).right.val - (api.GetWindowRect s hWnd).left.val < 100
      ∨ (api.GetWindowRect s hWnd).bottom.val - (api.GetWindowRect s hWnd).top.val < 50) :
    IsValidAppWindow api s g_hMainWnd hWnd className title = false := by
  rw [← Bool.not_eq_true, IsValidAppWindow_eq_true_iff_wrapped]
  rintro ⟨_, _, _, h1, h2, h3, h4, _, _⟩
  have hl := (api.GetWindowRect s hWnd).left.property
  have ht := (api.GetWindowRect s hWnd).top.property
  have hr := (api.GetWindowRect s hWnd).right.property
  have hb := (api.GetWindowRect s hWnd).bottom.property
  unfold toInt32 at h1 h2
  rcases h with h | h <;> omega

/-- Witness for C6: window 2 of the test desktop is 50 by 50. -/
theorem IsValidAppWindow_false_of_small_witness :
    (((deskApi false []).GetWindowRect ⟨[], []⟩ 2).right.val
        - ((deskApi false []).GetWindowRect ⟨[], []⟩ 2).left.val < 100
      ∨ ((deskApi false []).GetWindowRect ⟨[], []⟩ 2).bottom.val
        - ((deskApi false []).GetWindowRect ⟨[], []⟩ 2).top.val < 50)
      ∧ IsValidAppWindow (deskApi false []) ⟨[], []⟩ 5 2 (L "AppFrame") (L "Untitled") = false :=
  ⟨Or.inl (by decide),
    IsValidAppWindow_false_of_small (deskApi false []) ⟨[], []⟩ 5 2 (L "AppFrame")
      (L "Untitled") (Or.inl (by decide))⟩

/-- Claim C5 as first stated fails: a visible, unowned window with no denylisted
name, 4000000000 wide and 100 high, with its right edge on the positive side
and its left edge left of the screen's right edge, meets every listed
condition, yet `IsValidAppWindow` returns false, because the 32-bit `width`
wraps to a negative value. -/
theorem IsValidAppWindow_wide_counterexample :
    (wideApi.IsWindowVisible ⟨[], []⟩ 1 = true
      ∧ (1 : HWND) ≠ 5
      ∧ (IsSystemWindow wideApi ⟨[], []⟩ 1 (L "Notepad") (L "Untitled") = false
        ∧ (∀ e ∈ SYSTEM_WINDOW_CLASSES, ¬ e <:+: L "Notepad")
        ∧ (∀ e ∈ SYSTEM_WINDOW_TITLES, ¬ e <:+: L "Untitled")
        ∧ wideApi.GetWindowLong ⟨[], []⟩ 1 GWL_STYLE &&& WS_CHILD = 0
        ∧ wideApi.GetWindowLong ⟨[], []⟩ 1 GWL_EXSTYLE &&& WS_EX_TOOLWINDOW = 0
        ∧ wideApi.GetWindowLong ⟨[], []⟩ 1 GWL_EXSTYLE &&& WS_EX_NOACTIVATE = 0
        ∧ wideApi.GetWindow ⟨[], []⟩ 1 GW_OWNER = NULL)
      ∧ 100 ≤ (wideApi.GetWindowRect ⟨[], []⟩ 1).right.val
          - (wideApi.GetWindowRect ⟨[], []⟩ 1).left.val
      ∧ 50 ≤ (wideApi.GetWindowRect ⟨[], []⟩ 1).bottom.val
          - (wideApi.GetWindowRect ⟨[], []⟩ 1).top.val
      ∧ 0 < (wideApi.GetWindowRect ⟨[], []⟩ 1).right.val
      ∧ 0 < (wideApi.GetWindowRect ⟨[], []⟩ 1).bottom.val
      ∧ (wideApi.GetWindowRect ⟨[], []⟩ 1).left.val < wideApi.GetSystemMetrics ⟨[], []⟩ SM_CXSCREEN
      ∧ (wideApi.GetWindowRect ⟨[], []⟩ 1).top.val < wideApi.GetSystemMetrics ⟨[], []⟩ SM_CYSCREEN)
    ∧ IsValidAppWindow wideApi ⟨[], []⟩ 5 1 (L "Notepad") (L "Untitled") = false := by
  decide

/-- Claim C5, amended: for a rectangle whose width `right - left` and height
`bottom - top` do not exceed `INT_MAX`, `IsValidAppWindow` returns true exactly
when the window is visible, is not the tool's own main window, is not a system
window (its class name contains no class-denylist entry, its title no
title-denylist entry, it has none of the child, tool-window and no-activate
bits, and no owner), is at least 100 wide and 50 high, and is not entirely
off-screen. -/
theorem IsValidAppWindow_eq_true_iff {σ : Type} (api : WinAPI σ) (s : σ)
    (g_hMainWnd hWnd : HWND) (className title : WString)
    (hw : (api.GetWindowRect s hWnd).right.val - (api.GetWindowRect s hWnd).left.val
      ≤ 2147483647)
    (hh : (api.GetWindowRect s hWnd).bottom.val - (api.GetWindowRect s hWnd).top.val
      ≤ 2147483647) :
    IsValidAppWindow api s g_hMainWnd hWnd className title = true ↔
      api.IsWindowVisible s hWnd = true
      ∧ hWnd ≠ g_hMainWnd
      ∧ (IsSystemWindow api s hWnd className title = false
        ∧ (∀ e ∈ SYSTEM_WINDOW_CLASSES, ¬ e <:+: className)
        ∧ (∀ e ∈ SYSTEM_WINDOW_TITLES, ¬ e <:+: title)
        ∧ api.GetWindowLong s hWnd GWL_STYLE &&& WS_CHILD = 0
        ∧ api.GetWindowLong s hWnd GWL_EXSTYLE &&& WS_EX_TOOLWINDOW = 0
        ∧ api.GetWindowLong s hWnd GWL_EXSTYLE &&& WS_EX_NOACTIVATE = 0
        ∧ api.GetWindow s hWnd GW_OWNER = NULL)
      ∧ 100 ≤ (api.GetWindowRect s hWnd).right.val - (api.GetWindowRect s hWnd).left.val
      ∧ 50 ≤ (api.GetWindowRect s hWnd).bottom.val - (api.GetWindowRect s hWnd).top.val
      ∧ 0 < (api.GetWindowRect s hWnd).right.val
      ∧ 0 < (api.GetWindowRect s hWnd).bottom.val
      ∧ (api.GetWindowRect s hWnd).left.val < api.GetSystemMetrics s SM_CXSCREEN
      ∧ (api.GetWindowRect s hWnd).top.val < api.GetSystemMetrics s SM_CYSCREEN := by
  have hsys : IsSystemWindow api s hWnd className title = false ↔
      ((∀ e ∈ SYSTEM_WINDOW_CLASSES, ¬ e <:+: className)
        ∧ (∀ e ∈ SYSTEM_WINDOW_TITLES, ¬ e <:+: title)
        ∧ api.GetWindowLong s hWnd GWL_STYLE &&& WS_CHILD = 0
        ∧ api.GetWindowLong s hWnd GWL_EXSTYLE &&& WS_EX_TOOLWINDOW = 0
        ∧ api.GetWindowLong s hWnd GWL_EXSTYLE &&& WS_EX_NOACTIVATE = 0
        ∧ api.GetWindow s hWnd GW_OWNER = NULL) := by
    rw [← Bool.not_eq_true, IsSystemWindow_eq_true_iff]
    push_neg
    rfl
  have hsize := size_tests_exact (api.GetWindowRect s hWnd).left (api.GetWindowRect s hWnd).top
    (api.GetWindowRect s hWnd).right (api.GetWindowRect s hWnd).bottom
    (api.GetSystemMetrics s SM_CXSCREEN) (api.GetSystemMetrics s SM_CYSCREEN) hw hh
  rw [IsValidAppWindow_eq_true_iff_wrapped]
  constructor
  · rintro ⟨h1, h2, h3, h4⟩
    exact ⟨h1, h2, ⟨h3, hsys.mp h3⟩, hsize.mp h4⟩
  · rintro ⟨h1, h2, ⟨h3, _⟩, h4⟩
    exact ⟨h1, h2, h3, hsize.mpr h4⟩

/-- Witness for C5: window 1 of the test desktop, 300 by 200. -/
theorem IsValidAppWindow_eq_true_iff_witness :
    ((deskApi false []).GetWindowRect ⟨[], []⟩ 1).right.val
        - ((deskApi false []).GetWindowRect ⟨[], []⟩ 1).left.val ≤ 2147483647
      ∧ ((deskApi false []).GetWindowRect ⟨[], []⟩ 1).bottom.val
        - ((deskApi false []).GetWindowRect ⟨[], []⟩ 1).top.val ≤ 2147483647
      ∧ IsValidAppWindow (deskApi false []) ⟨[], []⟩ 5 1 (L "Notepad") (L "Untitled") = true :=
  ⟨by decide, by decide,
    (IsValidAppWindow_eq_true_iff (deskApi false []) ⟨[], []⟩ 5 1 (L "Notepad") (L "Untitled")
      (by decide) (by decide)).mpr (by decide)⟩

/-! ## Z-order comparator: proofs -/

theorem CompareZOrder_loop_eq {σ : Type} (api : WinAPI σ) (s : σ) (hWnd2 : HWND) :
    ∀ (n fuel : Nat) (h : HWND), chainEndsWithin api s n h = true → n ≤ fuel →
      CompareZOrder.loop api s hWnd2 fuel (api.GetWindow s h GW_HWNDNEXT)
        = some (decide (hWnd2 ∉ walkBelow api s n h)) := by
  intro n
  induction n with
  | zero => intro fuel h hfin; simp [chainEndsWithin] at hfin
  | succ n ih =>
    intro fuel h hfin hfuel
    obtain ⟨f, rfl⟩ : ∃ f, fuel = f + 1 := ⟨fuel - 1, by omega⟩
    by_cases hnull : api.GetWindow s h GW_HWNDNEXT = NULL
    · simp [CompareZOrder.loop, walkBelow, hnull]
    · have hrest : chainEndsWithin api s n (api.GetWindow s h GW_HWNDNEXT) = true := by
        simpa [chainEndsWithin, hnull] using hfin
      by_cases heq : api.GetWindow s h GW_HWNDNEXT = hWnd2
      · have hn2 : ¬ hWnd2 = NULL := heq ▸ hnull
        simp [CompareZOrder.loop, walkBelow, heq, hn2]
      · have hne : ¬ hWnd2 = api.GetWindow s h GW_HWNDNEXT := fun e => heq e.symm
        rw [CompareZOrder.loop]
        simp only [bne_iff_ne, ne_eq, hnull, not_false_eq_true, if_true, beq_iff_eq, heq,
          if_false]
        rw [ih f _ hrest (by omega)]
        simp [walkBelow, hnull, hne]

theorem CompareZOrder_of_chainEnds {σ : Type} (api : WinAPI σ) (s : σ) (n fuel : Nat)
    (hWnd1 hWnd2 : HWND) (hfin : chainEndsWithin api s n hWnd1 = true) (hfuel : n ≤ fuel) :
    CompareZOrder api s fuel hWnd1 hWnd2
      = some (decide (hWnd2 ∉ walkBelow api s n hWnd1)) :=
  CompareZOrder_loop_eq api s hWnd2 n fuel hWnd1 hfin hfuel

theorem chainEndsWithin_mono {σ : Type} (api : WinAPI σ) (s : σ) :
    ∀ (n m : Nat) (h : HWND), n ≤ m → chainEndsWithin api s n h = true →
      chainEndsWithin api s m h = true := by
  intro n
  induction n with
  | zero => intro m h _ hfin; simp [chainEndsWithin] at hfin
  | succ n ih =>
    intro m h hle hfin
    obtain ⟨k, rfl⟩ : ∃ k, m = k + 1 := ⟨m - 1, by omega⟩
    simp only [chainEndsWithin, Bool.or_eq_true] at hfin ⊢
    rcases hfin with h0 | h1
    · exact Or.inl h0
    · exact Or.inr (ih k _ (by omega) h1)

/-- Every window met on the walk below `h` is one step closer to the end of the
chain than `h`. -/
theorem chainEndsWithin_of_mem_walkBelow {σ : Type} (api : WinAPI σ) (s : σ) :
    ∀ (m n : Nat) (h x : HWND), chainEndsWithin api s (n + 1) h = true →
      x ∈ walkBelow api s m h → chainEndsWithin api s n x = true := by
  intro m
  induction m with
  | zero => intro n h x _ hx; simp [walkBelow] at hx
  | succ m ih =>
    intro n h x hfin hx
    by_cases hnull : api.GetWindow s h GW_HWNDNEXT = NULL
    · simp [walkBelow, hnull] at hx
    · have hrest : chainEndsWithin api s n (api.GetWindow s h GW_HWNDNEXT) = true := by
        simpa [chainEndsWithin, hnull] using hfin
      simp only [walkBelow, hnull, if_false, List.mem_cons] at hx
      rcases hx with rfl | hx
      · exact hrest
      · cases n with
        | zero => simp [chainEndsWithin] at hrest
        | succ k =>
          exact chainEndsWithin_mono api s k (k + 1) x (by omega) (ih k _ x hrest hx)

/-- On a finite chain no window lies below itself. -/
theorem not_mem_walkBelow_self {σ : Type} (api : WinAPI σ) (s : σ) :
    ∀ (n m : Nat) (h : HWND), chainEndsWithin api s n h = true → h ∉ walkBelow api s m h := by
  intro n
  induction n with
  | zero => intro m h hfin; simp [chainEndsWithin] at hfin
  | succ n ih =>
    intro m h hfin hmem
    exact ih m h (chainEndsWithin_of_mem_walkBelow api s m n h h hfin hmem) hmem

/-- On every finite chain the comparator answers true for a window compared
with itself. -/
theorem CompareZOrder_self {σ : Type} (api : WinAPI σ) (s : σ) (n fuel : Nat) (h : HWND)
    (hfin : chainEndsWithin api s n h = true) (hfuel : n ≤ fuel) :
    CompareZOrder api s fuel h h = some true := by
  unfold CompareZOrder
  rw [CompareZOrder_loop_eq api s h n fuel h hfin hfuel]
  simp [not_mem_walkBelow_self api s n n h hfin]

/-- Claim C9: on a finite, acyclic window chain `CompareZOrder` terminates; it
returns false exactly when the second handle is met on the walk that starts
just below the first, and true in every other case. -/
theorem CompareZOrder_eq {σ : Type} (api : WinAPI σ) (s : σ) (n fuel : Nat)
    (hWnd1 hWnd2 : HWND) (hfin : chainEndsWithin api s n hWnd1 = true) (hfuel : n ≤ fuel) :
    CompareZOrder api s fuel hWnd1 hWnd2
      = some (decide (hWnd2 ∉ walkBelow api s n hWnd1)) :=
  CompareZOrder_loop_eq api s hWnd2 n fuel hWnd1 hfin hfuel

/-- Witness for C9: on the test desktop window 3 is met below window 1. -/
theorem CompareZOrder_eq_witness :
    chainEndsWithin (deskApi false []) ⟨[], []⟩ 3 1 = true ∧ 3 ≤ 4
      ∧ CompareZOrder (deskApi false []) ⟨[], []⟩ 4 1 3
        = some (decide (3 ∉ walkBelow (deskApi false []) ⟨[], []⟩ 3 1)) :=
  ⟨by decide, by decide,
    CompareZOrder_eq (deskApi false []) ⟨[], []⟩ 3 4 1 3 (by decide) (by decide)⟩

/-- Claim C10, evaluated: the comparator is not a strict ordering.  On the chain
1, 2, 3 it answers true for window 2 against itself, and once windows 1 and 3
are closed it answers true for both orders of that pair. -/
theorem CompareZOrder_not_strict :
    CompareZOrder (deskApi false []) ⟨[], []⟩ 4 2 2 = some true
      ∧ CompareZOrder (deskApi false [1, 3]) ⟨[], []⟩ 4 1 3 = some true
      ∧ CompareZOrder (deskApi false [1, 3]) ⟨[], []⟩ 4 3 1 = some true := by
  decide

/-! ## Window inventory: proofs -/

theorem EnumWindowsProc_snd {σ : Type} (api : WinAPI σ) (st : State σ) (h : HWND) :
    (EnumWindowsProc api st h).2 = true := by
  unfold EnumWindowsProc
  dsimp only
  split_ifs <;> rfl

theorem EnumWindows_eq_foldl {σ : Type} (api : WinAPI σ) (l : List HWND) (st : State σ) :
    EnumWindows (EnumWindowsProc api) l st
      = l.foldl (fun a h => (EnumWindowsProc api a h).1) st := by
  induction l generalizing st with
  | nil => rfl
  | cons h rest ih =>
    have h2 := EnumWindowsProc_snd api st h
    rw [EnumWindows, List.foldl_cons]
    rcases hp : EnumWindowsProc api st h with ⟨st1, b⟩
    rw [hp] at h2
    simp only at h2
    subst h2
    exact ih st1

theorem expectedInventory_append {σ : Type} (api : WinAPI σ) (g : HWND) (os : σ)
    (l : List HWND) (h : HWND) :
    expectedInventory api g os (l ++ [h])
      = expectedInventory api g os l
        ++ (if IsValidAppWindow api (osAtVisit api g os l l.length) g h
              (api.GetClassName (osAtVisit api g os l l.length) h 256)
              (api.GetWindowText (osAtVisit api g os l l.length) h 256)
            then [recordAt api (osAtVisit api g os l l.length) h] else []) := by
  have hlast : osAtVisit api g os (l ++ [h]) l.length = osAtVisit api g os l l.length := by
    simp [osAtVisit]
  unfold expectedInventory
  rw [List.length_append, List.length_singleton, List.range_succ, List.filterMap_append]
  congr 1
  · apply List.filterMap_congr
    intro i hi
    have hlt : i < l.length := List.mem_range.mp hi
    have hos : osAtVisit api g os (l ++ [h]) i = osAtVisit api g os l i := by
      simp [osAtVisit, List.take_append_of_le_length (Nat.le_of_lt hlt)]
    rw [hos, List.getElem?_append_left hlt]
  · simp only [List.filterMap_cons, List.filterMap_nil, List.getElem?_concat_length, hlast]
    split_ifs <;> rfl

theorem foldl_EnumWindowsProc {σ : Type} (api : WinAPI σ) (g : HWND) (os : σ)
    (l : List HWND) :
    l.foldl (fun a h => (EnumWindowsProc api a h).1)
        { os := os, windowList := [], g_hMainWnd := g }
      = { os := osAtVisit api g os l l.length,
          windowList := expectedInventory api g os l, g_hMainWnd := g } := by
  induction l using List.reverseRecOn with
  | nil => rfl
  | append_singleton l h ih =>
    have hnext : osAtVisit api g os (l ++ [h]) (l ++ [h]).length
        = visitStep api g (osAtVisit api g os l l.length) h := by
      have hlen : (l ++ [h]).length = l.length + 1 := by simp
      have htake : List.take (l.length + 1) (l ++ [h]) = l ++ [h] := by
        rw [← hlen, List.take_length]
      simp [osAtVisit, htake, List.foldl_append]
    rw [List.foldl_append, ih, expectedInventory_append, hnext]
    simp only [List.foldl_cons, List.foldl_nil, EnumWindowsProc, visitStep]
    split_ifs with hv <;> simp_all [recordAt]

/-- Claim C1: after `MinimizeForScreenshot` the inventory is exactly the list
of records of the enumerated windows that are valid application windows when
visited, in enumeration order, each with the window's handle and the placement
read before it was minimized; it does not depend on the previous inventory. -/
theorem MinimizeForScreenshot_windowList {σ : Type} (api : WinAPI σ)
    (enumerated : List HWND) (st : State σ) :
    (MinimizeForScreenshot api enumerated st).windowList
      = expectedInventory api st.g_hMainWnd st.os enumerated := by
  unfold MinimizeForScreenshot
  rw [EnumWindows_eq_foldl, foldl_EnumWindowsProc]

/-! ## Restorer: proofs -/

theorem walkBelow_of_IsZChain {σ : Type} (api : WinAPI σ) (s : σ) :
    ∀ (rest : List HWND) (a : HWND), IsZChain api s (a :: rest) = true →
      chainEndsWithin api s (rest.length + 1) a = true
        ∧ walkBelow api s (rest.length + 1) a = rest := by
  intro rest
  induction rest with
  | nil =>
    intro a h
    have hnext : api.GetWindow s a GW_HWNDNEXT = NULL := by
      simp only [IsZChain, Bool.and_eq_true, beq_iff_eq] at h
      exact h.2
    simp [chainEndsWithin, walkBelow, hnext]
  | cons b rest ih =>
    intro a h
    simp only [IsZChain, Bool.and_eq_true, beq_iff_eq, bne_iff_ne] at h
    obtain ⟨⟨_, hnext⟩, htail⟩ := h
    have hb : b ≠ NULL := by
      cases rest with
      | nil =>
        simp only [IsZChain, Bool.and_eq_true, bne_iff_ne] at htail
        exact htail.1
      | cons c r =>
        simp only [IsZChain, Bool.and_eq_true, bne_iff_ne] at htail
        exact htail.1.1
    obtain ⟨h1, h2⟩ := ih b htail
    constructor
    · show chainEndsWithin api s (rest.length + 1 + 1) a = true
      rw [chainEndsWithin, hnext, h1, Bool.or_true]
    · show walkBelow api s (rest.length + 1 + 1) a = b :: rest
      rw [walkBelow, hnext, if_neg hb, h2]

theorem IsZChain_tail {σ : Type} (api : WinAPI σ) (s : σ) (a : HWND) (rest : List HWND)
    (h : IsZChain api s (a :: rest) = true) : IsZChain api s rest = true := by
  cases rest with
  | nil => rfl
  | cons b r =>
    simp only [IsZChain, Bool.and_eq_true] at h
    exact h.2

/-- On a finite chain two windows cannot each lie below the other. -/
theorem walkBelow_asymm {σ : Type} (api : WinAPI σ) (s : σ) :
    ∀ (n m k : Nat) (a b : HWND), chainEndsWithin api s n a = true →
      b ∈ walkBelow api s m a → a ∉ walkBelow api s k b := by
  intro n
  induction n with
  | zero => intro m k a b hfin; simp [chainEndsWithin] at hfin
  | succ n ih =>
    intro m k a b hfin hb ha
    have hbfin := chainEndsWithin_of_mem_walkBelow api s m n a b hfin hb
    cases n with
    | zero => simp [chainEndsWithin] at hbfin
    | succ j =>
      have hafin := chainEndsWithin_of_mem_walkBelow api s k j b a hbfin ha
      exact ih m k a b (chainEndsWithin_mono api s j (j + 1) a (by omega) hafin) hb ha

/-- On a whole chain the comparator settles every pair, the earlier (upper)
window above the later one. -/
theorem pairwise_Settled_of_IsZChain {σ : Type} (api : WinAPI σ) (s : σ) (fuel : Nat) :
    ∀ zs : List HWND, IsZChain api s zs = true → zs.length ≤ fuel →
      zs.Pairwise (Settled api s fuel) := by
  intro zs
  induction zs with
  | nil => intro _ _; exact List.Pairwise.nil
  | cons a rest ih =>
    intro hchain hfuel
    have hlen : rest.length + 1 ≤ fuel := by simpa using hfuel
    obtain ⟨hfin, hwalk⟩ := walkBelow_of_IsZChain api s rest a hchain
    refine List.Pairwise.cons ?_ (ih (IsZChain_tail api s a rest hchain) (by omega))
    intro b hb
    have hbw : b ∈ walkBelow api s (rest.length + 1) a := by rw [hwalk]; exact hb
    have hbfin := chainEndsWithin_of_mem_walkBelow api s _ rest.length a b hfin hbw
    constructor
    · rw [CompareZOrder_of_chainEnds api s (rest.length + 1) fuel a b hfin hlen]
      simp [hbw]
    · rw [CompareZOrder_of_chainEnds api s rest.length fuel b a hbfin (by omega)]
      simp [walkBelow_asymm api s _ _ rest.length a b hfin hbw]

/-! ## The GNU sort on a strictly ordered range -/

theorem exists_getElem? {α : Type} (a : List α) (i : Nat) (h : i < a.length) :
    ∃ x, a[i]? = some x :=
  ⟨a[i], List.getElem?_eq_getElem h⟩

theorem count_set_add {α : Type} [DecidableEq α] (x v u : α) :
    ∀ (l : List α) (i : Nat), l[i]? = some u →
      (l.set i v).count x + (if u = x then 1 else 0) = l.count x + (if v = x then 1 else 0) := by
  intro l
  induction l with
  | nil => intro i h; simp at h
  | cons a l ih =>
    intro i h
    cases i with
    | zero =>
      simp only [List.getElem?_cons_zero, Option.some.injEq] at h
      subst h
      simp only [List.set_cons_zero, List.count_cons, beq_iff_eq]
      omega
    | succ i =>
      simp only [List.getElem?_cons_succ] at h
      have := ih i h
      simp only [List.set_cons_succ, List.count_cons]
      omega

theorem RankedBy.of_perm {α : Type} {comp : α → α → Option Bool} {rk : α → Nat}
    {S a : List α} (h : RankedBy comp rk S) (hp : a.Perm S) : RankedBy comp rk a :=
  ⟨hp.nodup_iff.mpr h.nodup,
    fun x hx y hy => h.inj x (hp.subset hx) y (hp.subset hy),
    fun x hx y hy => h.cmp x (hp.subset hx) y (hp.subset hy)⟩

theorem RankedBy.rk_ne {α : Type} {comp : α → α → Option Bool} {rk : α → Nat}
    {a : List α} (h : RankedBy comp rk a) {i j : Nat} {x y : α}
    (hi : a[i]? = some x) (hj : a[j]? = some y) (hij : i ≠ j) : rk x ≠ rk y := by
  intro e
  obtain ⟨hi1, hi2⟩ := List.getElem?_eq_some.mp hi
  obtain ⟨hj1, hj2⟩ := List.getElem?_eq_some.mp hj
  have hx : x ∈ a := List.mem_iff_getElem?.mpr ⟨i, hi⟩
  have hy : y ∈ a := List.mem_iff_getElem?.mpr ⟨j, hj⟩
  have hxy := h.inj x hx y hy e
  subst hxy
  exact hij ((List.Nodup.getElem_inj_iff h.nodup).mp (hi2.trans hj2.symm))

theorem RankedBy.cmp_at {α : Type} {comp : α → α → Option Bool} {rk : α → Nat}
    {a : List α} (h : RankedBy comp rk a) {i j : Nat} {x y : α}
    (hi : a[i]? = some x) (hj : a[j]? = some y) (hij : i ≠ j) :
    comp x y = some (decide (rk x < rk y)) := by
  have hx : x ∈ a := List.mem_iff_getElem?.mpr ⟨i, hi⟩
  have hy : y ∈ a := List.mem_iff_getElem?.mpr ⟨j, hj⟩
  exact h.cmp x hx y hy (fun e => h.rk_ne hi hj hij (congrArg rk e))

/-! ### Insertion -/

theorem getElem?_append_cons {α : Type} (A B : List α) (x : α) (n : Nat)
    (hn : n = A.length) : (A ++ x :: B)[n]? = some x := by
  subst hn
  rw [List.getElem?_append_right (Nat.le_refl _)]
  simp

theorem set_append_cons {α : Type} (A B : List α) (x v : α) (n : Nat)
    (hn : n = A.length) : (A ++ x :: B).set n v = A ++ v :: B := by
  subst hn
  rw [List.set_append_right _ _ (Nat.le_refl _)]
  simp

theorem unguardedLinearInsert_loop_eq {α : Type} (comp : α → α → Option Bool) (val s : α)
    (pre : List α) (hs : comp val s = some false) :
    ∀ (mid : List α) (stale : α) (post : List α), (∀ m ∈ mid, comp val m = some true) →
      unguardedLinearInsert.loop comp val ((pre ++ [s]).length + mid.length)
          ((pre ++ [s]) ++ mid ++ stale :: post)
        = some ((pre ++ [s]) ++ val :: mid ++ post) := by
  intro mid
  induction mid using List.reverseRecOn with
  | nil =>
    intro stale post _
    have hidx : (pre ++ [s]).length + ([] : List α).length = pre.length + 1 := by simp
    have hshape : (pre ++ [s]) ++ [] ++ stale :: post = pre ++ s :: (stale :: post) := by simp
    rw [hidx, hshape, unguardedLinearInsert.loop, getElem?_append_cons pre _ s _ rfl]
    simp only [hs]
    have hshape2 : pre ++ s :: (stale :: post) = (pre ++ [s]) ++ stale :: post := by simp
    rw [hshape2, set_append_cons (pre ++ [s]) post stale val _ (by simp)]
    simp
  | append_singleton mid m ih =>
    intro stale post hmid
    have hm : comp val m = some true := hmid m (by simp)
    have hlen : (pre ++ [s]).length + (mid ++ [m]).length
        = ((pre ++ [s]).length + mid.length) + 1 := by
      simp only [List.length_append, List.length_singleton]; omega
    have hshape : (pre ++ [s]) ++ (mid ++ [m]) ++ stale :: post
        = ((pre ++ [s]) ++ mid) ++ m :: (stale :: post) := by simp
    rw [hlen, hshape, unguardedLinearInsert.loop,
      getElem?_append_cons ((pre ++ [s]) ++ mid) _ m _
        (by simp only [List.length_append, List.length_singleton])]
    simp only [hm]
    have hshape2 : ((pre ++ [s]) ++ mid) ++ m :: (stale :: post)
        = ((pre ++ [s]) ++ mid ++ [m]) ++ stale :: post := by simp
    rw [hshape2, set_append_cons ((pre ++ [s]) ++ mid ++ [m]) post stale m _
      (by simp only [List.length_append, List.length_singleton])]
    have hshape3 : ((pre ++ [s]) ++ mid ++ [m]) ++ m :: post
        = (pre ++ [s]) ++ mid ++ m :: (m :: post) := by simp
    rw [hshape3, ih m (m :: post) (fun x hx => hmid x (by simp [hx]))]
    simp

/-- A strictly increasing list splits around a new rank. -/
theorem split_sorted {α : Type} (rk : α → Nat) (v : Nat) :
    ∀ p : List α, p.Pairwise (fun x y => rk x < rk y) → (∀ x ∈ p, rk x ≠ v) →
      ∃ pre mid, p = pre ++ mid ∧ (∀ x ∈ pre, rk x < v) ∧ (∀ x ∈ mid, v < rk x) := by
  intro p
  induction p with
  | nil => intro _ _; exact ⟨[], [], rfl, by simp, by simp⟩
  | cons a p ih =>
    intro hs hne
    rw [List.pairwise_cons] at hs
    by_cases ha : rk a < v
    · obtain ⟨pre, mid, he, h1, h2⟩ := ih hs.2 (fun x hx => hne x (List.mem_cons_of_mem _ hx))
      refine ⟨a :: pre, mid, by simp [he], ?_, h2⟩
      intro x hx
      rcases List.mem_cons.mp hx with rfl | hx
      · exact ha
      · exact h1 x hx
    · refine ⟨[], a :: p, rfl, by simp, ?_⟩
      have hav : v < rk a := by
        have := hne a (List.mem_cons_self _ _)
        omega
      intro x hx
      rcases List.mem_cons.mp hx with rfl | hx
      · exact hav
      · have := hs.1 x hx
        omega

theorem sorted_insert {α : Type} (rk : α → Nat) (val : α) (pre mid : List α)
    (hs : (pre ++ mid).Pairwise (fun x y => rk x < rk y))
    (h1 : ∀ x ∈ pre, rk x < rk val) (h2 : ∀ x ∈ mid, rk val < rk x) :
    (pre ++ val :: mid).Pairwise (fun x y => rk x < rk y) := by
  rw [List.pairwise_append] at hs ⊢
  refine ⟨hs.1, ?_, ?_⟩
  · rw [List.pairwise_cons]
    exact ⟨h2, hs.2.1⟩
  · intro x hx y hy
    rcases List.mem_cons.mp hy with rfl | hy
    · exact h1 x hx
    · exact hs.2.2 x hx y hy

/-- One unguarded insertion into a sorted prefix that holds a smaller element. -/
theorem unguardedLinearInsert_sorted {α : Type} {comp : α → α → Option Bool} {rk : α → Nat}
    (p : List α) (val : α) (rest : List α) (h : RankedBy comp rk (p ++ val :: rest))
    (hs : p.Pairwise (fun x y => rk x < rk y)) (hsent : ∃ x ∈ p, rk x < rk val) :
    ∃ q, unguardedLinearInsert comp (p ++ val :: rest) p.length = some (q ++ rest)
      ∧ q.Pairwise (fun x y => rk x < rk y) ∧ q.Perm (p ++ [val]) := by
  have hval : (p ++ val :: rest)[p.length]? = some val := by
    rw [List.getElem?_append_right (Nat.le_refl _)]; simp
  have hne : ∀ x ∈ p, rk x ≠ rk val := by
    intro x hx
    obtain ⟨i, hi⟩ := List.mem_iff_getElem?.mp hx
    have hi1 : i < p.length := (List.getElem?_eq_some.mp hi).1
    have hi2 : (p ++ val :: rest)[i]? = some x := by
      rw [List.getElem?_append_left hi1]; exact hi
    exact h.rk_ne hi2 hval (by omega)
  have hcmp : ∀ x ∈ p, comp val x = some (decide (rk val < rk x)) := by
    intro x hx
    exact h.cmp val (by simp) x (by simp [hx]) (fun e => hne x hx (congrArg rk e).symm)
  obtain ⟨pre, mid, he, h1, h2⟩ := split_sorted rk (rk val) p hs hne
  obtain ⟨x, hx, hxv⟩ := hsent
  have hpre : pre ≠ [] := by
    intro e
    subst e
    simp only [List.nil_append] at he
    subst he
    have := h2 x hx
    omega
  obtain ⟨pre0, s, rfl⟩ : ∃ pre0 s, pre = pre0 ++ [s] :=
    ⟨pre.dropLast, pre.getLast hpre, (List.dropLast_append_getLast hpre).symm⟩
  have hsv : comp val s = some false := by
    rw [hcmp s (by simp [he])]
    have := h1 s (by simp)
    simp; omega
  have hmid : ∀ m ∈ mid, comp val m = some true := by
    intro m hm
    rw [hcmp m (by simp [he, hm])]
    simp [h2 m hm]
  refine ⟨(pre0 ++ [s]) ++ val :: mid, ?_, ?_, ?_⟩
  · unfold unguardedLinearInsert
    rw [hval]
    simp only
    have := unguardedLinearInsert_loop_eq comp val s pre0 hsv mid val rest hmid
    rw [he, List.length_append]
    exact this
  · exact sorted_insert rk val _ _ (he ▸ hs) h1 h2
  · rw [he]
    exact List.perm_middle.trans (List.perm_append_singleton val _).symm

theorem insertionSort_loop_sorted {α : Type} (comp : α → α → Option Bool) (rk : α → Nat) :
    ∀ (rest p tail : List α), RankedBy comp rk (p ++ rest ++ tail) → p ≠ [] →
      p.Pairwise (fun x y => rk x < rk y) →
      ∃ q, insertionSort.loop comp 0 rest.length p.length (p ++ rest ++ tail) = some (q ++ tail)
        ∧ q.Pairwise (fun x y => rk x < rk y) ∧ q.Perm (p ++ rest) := by
  intro rest
  induction rest with
  | nil =>
    intro p tail _ _ hs
    exact ⟨p, by simp [insertionSort.loop], hs, by simp⟩
  | cons val rest ih =>
    intro p tail h hp hs
    obtain ⟨x, p1, rfl⟩ : ∃ x p1, p = x :: p1 := List.exists_cons_of_ne_nil hp
    have hshape : (x :: p1) ++ val :: rest ++ tail = (x :: p1) ++ val :: (rest ++ tail) := by simp
    have hval : ((x :: p1) ++ val :: rest ++ tail)[(x :: p1).length]? = some val := by
      rw [hshape]; exact getElem?_append_cons _ _ _ _ rfl
    have hx : ((x :: p1) ++ val :: rest ++ tail)[0]? = some x := by simp
    have hcmp := h.cmp_at hval hx (by simp)
    have hne := h.rk_ne hval hx (by simp)
    rw [List.length_cons (a := val), insertionSort.loop, hval, hx]
    simp only [hcmp]
    by_cases hlt : rk val < rk x
    · simp only [hlt, decide_True]
      have harr : List.take 0 ((x :: p1) ++ val :: rest ++ tail)
          ++ val :: (List.take ((x :: p1).length - 0)
              (List.drop 0 ((x :: p1) ++ val :: rest ++ tail))
            ++ List.drop ((x :: p1).length + 1) ((x :: p1) ++ val :: rest ++ tail))
          = (val :: x :: p1) ++ rest ++ tail := by
        have h2 : List.drop ((x :: p1).length + 1) ((x :: p1) ++ val :: (rest ++ tail))
            = rest ++ tail := by
          rw [List.drop_append_eq_append_drop]
          simp
        have h1 : List.take ((x :: p1).length) ((x :: p1) ++ val :: (rest ++ tail))
            = x :: p1 := by
          rw [List.take_append_eq_append_take]
          simp
        rw [hshape]
        simp only [Nat.sub_zero, List.drop_zero, List.take_zero, List.nil_append]
        rw [h1, h2]
        simp
      rw [harr]
      have hperm : ((val :: x :: p1) ++ rest ++ tail).Perm ((x :: p1) ++ val :: rest ++ tail) := by
        simpa using (@List.perm_middle _ val (x :: p1) (rest ++ tail)).symm
      have hs2 : (val :: x :: p1).Pairwise (fun x y => rk x < rk y) := by
        rw [List.pairwise_cons]
        refine ⟨?_, hs⟩
        intro y hy
        rcases List.mem_cons.mp hy with rfl | hy
        · exact hlt
        · have := (List.pairwise_cons.mp hs).1 y hy
          omega
      obtain ⟨q, hq, hqs, hqp⟩ := ih (val :: x :: p1) tail (h.of_perm hperm) (by simp) hs2
      refine ⟨q, ?_, hqs, hqp.trans ?_⟩
      · simpa using hq
      · simpa using (@List.perm_middle _ val (x :: p1) rest).symm
    · have hxv : rk x < rk val := by omega
      simp only [hlt, decide_False]
      rw [hshape]
      obtain ⟨q1, hq1, hq1s, hq1p⟩ := unguardedLinearInsert_sorted (x :: p1) val (rest ++ tail)
        (hshape ▸ h) hs ⟨x, by simp, hxv⟩
      rw [hq1]
      simp only
      have hlen : q1.length = (x :: p1).length + 1 := by
        rw [hq1p.length_eq]; simp
      have hperm : (q1 ++ rest ++ tail).Perm ((x :: p1) ++ val :: rest ++ tail) := by
        have := List.Perm.append_right (rest ++ tail) hq1p
        simpa using this
      have hq1ne : q1 ≠ [] := by
        intro e; rw [e] at hlen; simp at hlen
      obtain ⟨q, hq, hqs, hqp⟩ := ih q1 tail (h.of_perm hperm) hq1ne hq1s
      refine ⟨q, ?_, hqs, hqp.trans ?_⟩
      · rw [← hlen, ← List.append_assoc]
        exact hq
      · have := List.Perm.append_right rest hq1p
        simpa using this

/-- The unguarded rounds: every element still to insert has a smaller element
before it. -/
theorem unguardedInsertionSort_sorted {α : Type} (comp : α → α → Option Bool) (rk : α → Nat) :
    ∀ (rest p tail : List α), RankedBy comp rk (p ++ rest ++ tail) →
      p.Pairwise (fun x y => rk x < rk y) →
      (∀ k y, rest[k]? = some y → ∃ x ∈ p ++ rest.take k, rk x < rk y) →
      ∃ q, unguardedInsertionSort comp rest.length p.length (p ++ rest ++ tail) = some (q ++ tail)
        ∧ q.Pairwise (fun x y => rk x < rk y) ∧ q.Perm (p ++ rest) := by
  intro rest
  induction rest with
  | nil =>
    intro p tail _ hs _
    exact ⟨p, by simp [unguardedInsertionSort], hs, by simp⟩
  | cons val rest ih =>
    intro p tail h hs hW
    have hshape : p ++ val :: rest ++ tail = p ++ val :: (rest ++ tail) := by simp
    obtain ⟨x, hx, hxv⟩ := hW 0 val (by simp)
    simp only [List.take_zero, List.append_nil] at hx
    obtain ⟨q1, hq1, hq1s, hq1p⟩ := unguardedLinearInsert_sorted p val (rest ++ tail)
      (hshape ▸ h) hs ⟨x, hx, hxv⟩
    rw [List.length_cons (a := val), unguardedInsertionSort, hshape, hq1]
    simp only
    have hlen : q1.length = p.length + 1 := by
      rw [hq1p.length_eq]; simp
    have hperm : (q1 ++ rest ++ tail).Perm (p ++ val :: rest ++ tail) := by
      have := List.Perm.append_right (rest ++ tail) hq1p
      simpa using this
    have hW2 : ∀ k y, rest[k]? = some y → ∃ x ∈ q1 ++ rest.take k, rk x < rk y := by
      intro k y hy
      obtain ⟨x, hx, hxy⟩ := hW (k + 1) y (by simpa using hy)
      refine ⟨x, ?_, hxy⟩
      simp only [List.take_succ_cons, List.mem_append, List.mem_cons] at hx
      rw [List.mem_append]
      rcases hx with hx | rfl | hx
      · exact Or.inl (hq1p.symm.subset (by simp [hx]))
      · exact Or.inl (hq1p.symm.subset (by simp))
      · exact Or.inr hx
    obtain ⟨q, hq, hqs, hqp⟩ := ih q1 tail (h.of_perm hperm) hq1s hW2
    refine ⟨q, ?_, hqs, hqp.trans ?_⟩
    · rw [← hlen, ← List.append_assoc]
      exact hq
    · have := List.Perm.append_right rest hq1p
      simpa using this

theorem insertionSort_sorted {α : Type} (comp : α → α → Option Bool) (rk : α → Nat)
    (a : List α) (last : Nat) (h : RankedBy comp rk a) (hl : last ≤ a.length)
    (hpos : 0 < last) :
    ∃ q, insertionSort comp a 0 last = some (q ++ a.drop last)
      ∧ q.Pairwise (fun x y => rk x < rk y) ∧ q.Perm (a.take last) := by
  have hsplit : a = a.take last ++ a.drop last := (List.take_append_drop last a).symm
  have hlen : (a.take last).length = last := List.length_take_of_le hl
  obtain ⟨x, r1, hx⟩ : ∃ x r1, a.take last = x :: r1 :=
    List.exists_cons_of_ne_nil (fun e => by rw [e] at hlen; simp at hlen; omega)
  have hr1 : r1.length = last - 1 := by
    have := congrArg List.length hx
    rw [hlen] at this
    simp at this
    omega
  have harr : a = [x] ++ r1 ++ a.drop last := by
    have : [x] ++ r1 = a.take last := by rw [hx]; rfl
    rw [this]
    exact hsplit
  obtain ⟨q, hq, hqs, hqp⟩ := insertionSort_loop_sorted comp rk r1 [x]
    (a.drop last) (harr ▸ h) (by simp) (by simp)
  refine ⟨q, ?_, hqs, ?_⟩
  · unfold insertionSort
    rw [if_neg (by omega)]
    rw [hr1, ← harr] at hq
    simpa using hq
  · rw [hx]
    simpa using hqp

/-- The final insertion sort sorts any arrangement in which every element from
position 16 on has a smaller element before it. -/
theorem finalInsertionSort_sorted {α : Type} (comp : α → α → Option Bool) (rk : α → Nat)
    (a : List α) (h : RankedBy comp rk a) (hne : a ≠ [])
    (hW : ∀ i y, 16 ≤ i → a[i]? = some y → ∃ j x, j < i ∧ a[j]? = some x ∧ rk x < rk y) :
    ∃ q, finalInsertionSort comp a 0 a.length = some q
      ∧ q.Pairwise (fun x y => rk x < rk y) ∧ q.Perm a := by
  have hpos : 0 < a.length := List.length_pos.mpr hne
  unfold finalInsertionSort
  by_cases hbig : a.length - 0 > 16
  · rw [if_pos hbig]
    obtain ⟨q0, hq0, hq0s, hq0p⟩ := insertionSort_sorted comp rk a 16 h
      (by omega) (by omega)
    have hq0len : q0.length = 16 := by
      rw [hq0p.length_eq, List.length_take_of_le (by omega)]
    have hperm : (q0 ++ a.drop 16 ++ []).Perm a := by
      have := List.Perm.append_right (a.drop 16) hq0p
      simpa using this
    have hW2 : ∀ k y, (a.drop 16)[k]? = some y →
        ∃ x ∈ q0 ++ (a.drop 16).take k, rk x < rk y := by
      intro k y hy
      rw [List.getElem?_drop] at hy
      obtain ⟨j, x, hj, hx, hxy⟩ := hW (16 + k) y (by omega) hy
      refine ⟨x, ?_, hxy⟩
      rw [List.mem_append]
      by_cases hj16 : j < 16
      · left
        apply hq0p.symm.subset
        exact List.mem_iff_getElem?.mpr ⟨j, by rw [List.getElem?_take_of_lt hj16]; exact hx⟩
      · right
        refine List.mem_iff_getElem?.mpr ⟨j - 16, ?_⟩
        rw [List.getElem?_take_of_lt (by omega), List.getElem?_drop]
        rw [show 16 + (j - 16) = j by omega]
        exact hx
    obtain ⟨q, hq, hqs, hqp⟩ := unguardedInsertionSort_sorted comp rk
      (a.drop 16) q0 [] (h.of_perm hperm) hq0s hW2
    refine ⟨q, ?_, hqs, hqp.trans (by simpa using hperm)⟩
    rw [show (0 : Nat) + 16 = 16 by rfl, hq0]
    simp only
    rw [hq0len, List.length_drop] at hq
    simpa using hq
  · rw [if_neg hbig]
    obtain ⟨q, hq, hqs, hqp⟩ := insertionSort_sorted comp rk a a.length h
      (Nat.le_refl _) hpos
    refine ⟨q, by simpa using hq, hqs, by simpa using hqp⟩

/-! ### Partition -/

theorem set_set_perm {α : Type} [DecidableEq α] (a : List α) (i j : Nat) (x y : α)
    (hi : a[i]? = some x) (hj : a[j]? = some y) : ((a.set i y).set j x).Perm a := by
  rw [List.perm_iff_count]
  intro z
  have hj2 : (a.set i y)[j]? = some y := by
    by_cases hij : i = j
    · subst hij
      rw [List.getElem?_set_self (List.getElem?_eq_some.mp hi).1]
    · rw [List.getElem?_set_ne hij]; exact hj
  have h1 := count_set_add z x y (a.set i y) j hj2
  have h2 := count_set_add z y x a i hi
  omega

theorem set_set_getElem? {α : Type} (a : List α) (i j k : Nat) (x y : α)
    (hi : a[i]? = some x) (hj : a[j]? = some y) :
    ((a.set i y).set j x)[k]?
      = if k = j then some x else if k = i then some y else a[k]? := by
  have hil : i < a.length := (List.getElem?_eq_some.mp hi).1
  have hjl : j < a.length := (List.getElem?_eq_some.mp hj).1
  by_cases hkj : k = j
  · subst hkj
    rw [List.getElem?_set_self (by simpa using hjl)]
    simp
  · rw [List.getElem?_set_ne (fun e => hkj e.symm), if_neg hkj]
    by_cases hki : k = i
    · subst hki
      rw [List.getElem?_set_self hil]
      simp
    · rw [List.getElem?_set_ne (fun e => hki e.symm), if_neg hki]

theorem iterSwap_eq {α : Type} (a : List α) (i j : Nat) (x y : α)
    (hi : a[i]? = some x) (hj : a[j]? = some y) :
    iterSwap a i j = some ((a.set i y).set j x) := by
  unfold iterSwap
  rw [hi, hj]

/-- An element of a range stays in the range under a rearrangement that leaves
the rest of the vector alone. -/
theorem stays_in_range {α : Type} {comp : α → α → Option Bool} {rk : α → Nat}
    (a b : List α) (h : RankedBy comp rk a) (hp : b.Perm a) (f l : Nat)
    (hfr : ∀ i, i < f ∨ l ≤ i → b[i]? = a[i]?) (i : Nat) (x : α) (hi : a[i]? = some x)
    (hf : f ≤ i) (hl : i < l) : ∃ j, f ≤ j ∧ j < l ∧ b[j]? = some x := by
  have hx : x ∈ b := hp.symm.subset (List.mem_iff_getElem?.mpr ⟨i, hi⟩)
  obtain ⟨j, hj⟩ := List.mem_iff_getElem?.mp hx
  by_cases hout : j < f ∨ l ≤ j
  · exfalso
    have hj2 : a[j]? = some x := by rw [← hfr j hout]; exact hj
    obtain ⟨h1, h2⟩ := List.getElem?_eq_some.mp hi
    obtain ⟨h3, h4⟩ := List.getElem?_eq_some.mp hj2
    have := (List.Nodup.getElem_inj_iff h.nodup).mp (h2.trans h4.symm)
    omega
  · exact ⟨j, by omega, by omega, hj⟩

theorem up_spec {α : Type} {comp : α → α → Option Bool} {rk : α → Nat}
    (a : List α) (h : RankedBy comp rk a) (pivot : Nat) (p : α) (hp : a[pivot]? = some p)
    (t : Nat) (xt : α) (ht : a[t]? = some xt) (hxt : rk p < rk xt) :
    ∀ (fuel first : Nat), pivot < first → first ≤ t → t - first < fuel →
      ∃ f, unguardedPartition.up comp a pivot fuel first = some f ∧ first ≤ f ∧ f ≤ t
        ∧ ∃ x, a[f]? = some x ∧ rk p < rk x := by
  intro fuel
  induction fuel with
  | zero => intro first _ _ hf; omega
  | succ fuel ih =>
    intro first hpf hft hfuel
    have htl : t < a.length := (List.getElem?_eq_some.mp ht).1
    obtain ⟨x, hx⟩ : ∃ x, a[first]? = some x :=
      exists_getElem? a (first) (by omega)
    have hcmp := h.cmp_at hx hp (by omega)
    have hne := h.rk_ne hx hp (by omega)
    rw [unguardedPartition.up, hx, hp]
    simp only [hcmp]
    by_cases hlt : rk x < rk p
    · simp only [hlt, decide_True]
      have hft2 : first ≠ t := by
        intro e
        subst e
        rw [hx] at ht
        simp only [Option.some.injEq] at ht
        subst ht
        omega
      obtain ⟨f, hf, h1, h2, h3⟩ := ih (first + 1) (by omega) (by omega) (by omega)
      exact ⟨f, hf, by omega, h2, h3⟩
    · simp only [hlt, decide_False]
      exact ⟨first, rfl, Nat.le_refl _, hft, x, hx, by omega⟩

theorem down_spec {α : Type} {comp : α → α → Option Bool} {rk : α → Nat}
    (a : List α) (h : RankedBy comp rk a) (pivot : Nat) (p : α) (hp : a[pivot]? = some p)
    (t : Nat) (xt : α) (ht : a[t]? = some xt) (hxt : rk xt < rk p) (hpt : pivot < t) :
    ∀ (last : Nat), t < last → last ≤ a.length →
      ∃ l, unguardedPartition.down comp a pivot last = some l ∧ t ≤ l ∧ l < last
        ∧ (∀ i x, l < i → i < last → a[i]? = some x → rk p < rk x)
        ∧ ∃ x, a[l]? = some x ∧ rk x < rk p := by
  intro last
  induction last with
  | zero => intro h0; omega
  | succ k ih =>
    intro htk hkl
    obtain ⟨x, hx⟩ : ∃ x, a[k]? = some x :=
      exists_getElem? a (k) (by omega)
    have hcmp := h.cmp_at hp hx (by omega)
    have hne := h.rk_ne hp hx (by omega)
    rw [unguardedPartition.down, hx, hp]
    simp only [hcmp]
    by_cases hlt : rk p < rk x
    · simp only [hlt, decide_True]
      have hkt : k ≠ t := by
        intro e
        subst e
        rw [hx] at ht
        simp only [Option.some.injEq] at ht
        subst ht
        omega
      obtain ⟨l, hl, h1, h2, h3, h4⟩ := ih (by omega) (by omega)
      refine ⟨l, hl, h1, by omega, ?_, h4⟩
      intro i y hli hik hy
      by_cases hik2 : i = k
      · subst hik2
        rw [hx] at hy
        simp only [Option.some.injEq] at hy
        subst hy
        exact hlt
      · exact h3 i y hli (by omega) hy
    · simp only [hlt, decide_False]
      refine ⟨k, rfl, by omega, by omega, ?_, x, hx, by omega⟩
      intro i y hki hik _
      omega

theorem unguardedPartition_loop_spec {α : Type} [DecidableEq α] (comp : α → α → Option Bool)
    (rk : α → Nat) (pivot hi : Nat) (p : α) :
    ∀ (fuel first last : Nat) (a : List α), RankedBy comp rk a → a[pivot]? = some p →
      pivot < first → last ≤ hi → hi ≤ a.length →
      (∀ i x, last ≤ i → i < hi → a[i]? = some x → rk p < rk x) →
      (∃ t xt, first ≤ t ∧ t < hi ∧ a[t]? = some xt ∧ rk p < rk xt) →
      (∃ t xt, pivot < t ∧ t < last ∧ a[t]? = some xt ∧ rk xt < rk p) →
      last - first < fuel →
      ∃ a1 cut, unguardedPartition.loop comp pivot fuel first last a = some (a1, cut)
        ∧ a1.Perm a ∧ (∀ i, i < pivot + 1 ∨ hi ≤ i → a1[i]? = a[i]?)
        ∧ pivot < cut ∧ cut < hi
        ∧ ∀ i x, cut ≤ i → i < hi → a1[i]? = some x → rk p < rk x := by
  intro fuel
  induction fuel with
  | zero => intro first last a _ _ _ _ _ _ _ _ hf; omega
  | succ fuel ih =>
    intro first last a h hp hpf hlast hhi hB hC hD hfuel
    obtain ⟨tC, xC, hC1, hC2, hC3, hC4⟩ := hC
    obtain ⟨tD, xD, hD1, hD2, hD3, hD4⟩ := hD
    obtain ⟨f, hf, hf1, hf2, xf, hxf, hxfp⟩ :=
      up_spec a h pivot p hp tC xC hC3 hC4 (a.length + 1) first hpf hC1 (by omega)
    obtain ⟨l, hl, hl1, hl2, hl3, xl, hxl, hxlp⟩ :=
      down_spec a h pivot p hp tD xD hD3 hD4 hD1 last hD2 (by omega)
    rw [unguardedPartition.loop, hf]
    simp only [hl]
    by_cases hfl : f < l
    · rw [if_neg (by omega), iterSwap_eq a f l xf xl hxf hxl]
      simp only
      have hget := set_set_getElem? a f l
      have hperm := set_set_perm a f l xf xl hxf hxl
      obtain ⟨a1, cut, hres, hp1, hfr1, hc1, hc2, hc3⟩ :=
        ih (f + 1) l ((a.set f xl).set l xf) (h.of_perm hperm)
          (by rw [hget pivot xf xl hxf hxl, if_neg (by omega), if_neg (by omega)]; exact hp)
          (by omega) (by omega) (by simpa using hhi)
          (by
            intro i x hli hih hx
            rw [hget i xf xl hxf hxl] at hx
            by_cases hil : i = l
            · rw [if_pos hil] at hx
              simp only [Option.some.injEq] at hx
              subst hx
              exact hxfp
            · rw [if_neg hil, if_neg (by omega)] at hx
              by_cases hilast : i < last
              · exact hl3 i x (by omega) hilast hx
              · exact hB i x (by omega) hih hx)
          ⟨l, xf, by omega, by omega,
            by rw [hget l xf xl hxf hxl, if_pos rfl], hxfp⟩
          ⟨f, xl, by omega, hfl,
            by rw [hget f xf xl hxf hxl, if_neg (by omega), if_pos rfl], hxlp⟩
          (by omega)
      refine ⟨a1, cut, hres, hp1.trans hperm, ?_, hc1, hc2, hc3⟩
      intro i hi
      rw [hfr1 i hi, hget i xf xl hxf hxl, if_neg (by omega), if_neg (by omega)]
    · rw [if_pos (by omega)]
      refine ⟨a, f, rfl, List.Perm.refl _, fun _ _ => rfl, by omega, by omega, ?_⟩
      intro i x hfi hih hx
      by_cases hif : i = f
      · subst hif
        rw [hxf] at hx
        simp only [Option.some.injEq] at hx
        subst hx
        exact hxfp
      · by_cases hilast : i < last
        · exact hl3 i x (by omega) hilast hx
        · exact hB i x (by omega) hih hx

/-- After the swap that brings the median to `first`, a smaller and a larger
element remain behind it. -/
theorem median_swapped {α : Type} [DecidableEq α] (rk : α → Nat)
    (a : List α) (first last m u v : Nat) (w p xu xv : α)
    (hw : a[first]? = some w) (hm : a[m]? = some p) (hu : a[u]? = some xu)
    (hv : a[v]? = some xv) (hfm : first < m) (hfu : first < u) (hfv : first < v)
    (hml : m < last) (hul : u < last) (hvl : v < last) (hmu : m ≠ u) (hmv : m ≠ v)
    (hup : rk xu < rk p) (hvp : rk p < rk xv) :
    ∃ a1, iterSwap a first m = some a1 ∧ a1.Perm a
      ∧ (∀ i, i < first ∨ last ≤ i → a1[i]? = a[i]?)
      ∧ a1[first]? = some p
      ∧ (∃ t xt, first + 1 ≤ t ∧ t < last ∧ a1[t]? = some xt ∧ rk p < rk xt)
      ∧ (∃ t xt, first < t ∧ t < last ∧ a1[t]? = some xt ∧ rk xt < rk p) := by
  have hget := set_set_getElem? a first m
  refine ⟨(a.set first p).set m w, iterSwap_eq a first m w p hw hm,
    set_set_perm a first m w p hw hm, ?_, ?_, ?_, ?_⟩
  · intro i hi
    rw [hget i w p hw hm, if_neg (by omega), if_neg (by omega)]
  · rw [hget first w p hw hm, if_neg (by omega), if_pos rfl]
  · exact ⟨v, xv, by omega, hvl,
      by rw [hget v w p hw hm, if_neg (fun e => hmv e.symm), if_neg (by omega)]; exact hv, hvp⟩
  · exact ⟨u, xu, hfu, hul,
      by rw [hget u w p hw hm, if_neg (fun e => hmu e.symm), if_neg (by omega)]; exact hu, hup⟩

theorem moveMedianToFirst_spec {α : Type} [DecidableEq α] {comp : α → α → Option Bool}
    {rk : α → Nat} (a : List α) (h : RankedBy comp rk a) (first last : Nat)
    (hbig : last - first > 16) (hl : last ≤ a.length) :
    ∃ a1 p, moveMedianToFirst comp a first (first + 1) (first + (last - first) / 2) (last - 1)
        = some a1 ∧ a1.Perm a
      ∧ (∀ i, i < first ∨ last ≤ i → a1[i]? = a[i]?)
      ∧ a1[first]? = some p
      ∧ (∃ t xt, first + 1 ≤ t ∧ t < last ∧ a1[t]? = some xt ∧ rk p < rk xt)
      ∧ (∃ t xt, first < t ∧ t < last ∧ a1[t]? = some xt ∧ rk xt < rk p) := by
  have hget : ∀ i, i < a.length → ∃ x, a[i]? = some x :=
    fun i hi => exists_getElem? a (i) hi
  obtain ⟨w, hw⟩ := hget first (by omega)
  obtain ⟨x, hx⟩ := hget (first + 1) (by omega)
  obtain ⟨y, hy⟩ := hget (first + (last - first) / 2) (by omega)
  obtain ⟨z, hz⟩ := hget (last - 1) (by omega)
  have hxy := h.cmp_at hx hy (by omega)
  have hyz := h.cmp_at hy hz (by omega)
  have hxz := h.cmp_at hx hz (by omega)
  have nxy := h.rk_ne hx hy (by omega)
  have nyz := h.rk_ne hy hz (by omega)
  have nxz := h.rk_ne hx hz (by omega)
  unfold moveMedianToFirst
  rw [hx, hy, hz]
  simp only [hxy, hyz, hxz]
  by_cases c1 : rk x < rk y <;> by_cases c2 : rk y < rk z <;> by_cases c3 : rk x < rk z <;>
    simp only [c1, c2, c3, decide_True, decide_False]
  · obtain ⟨a1, e, r⟩ := median_swapped rk a first last _ _ _ w y x z hw hy hx hz
      (by omega) (by omega) (by omega) (by omega) (by omega) (by omega) (by omega) (by omega)
      c1 c2
    exact ⟨a1, y, e, r⟩
  · omega
  · obtain ⟨a1, e, r⟩ := median_swapped rk a first last _ _ _ w z x y hw hz hx hy
      (by omega) (by omega) (by omega) (by omega) (by omega) (by omega) (by omega) (by omega)
      c3 (by omega)
    exact ⟨a1, z, e, r⟩
  · obtain ⟨a1, e, r⟩ := median_swapped rk a first last _ _ _ w x z y hw hx hz hy
      (by omega) (by omega) (by omega) (by omega) (by omega) (by omega) (by omega) (by omega)
      (by omega) c1
    exact ⟨a1, x, e, r⟩
  · obtain ⟨a1, e, r⟩ := median_swapped rk a first last _ _ _ w x y z hw hx hy hz
      (by omega) (by omega) (by omega) (by omega) (by omega) (by omega) (by omega) (by omega)
      (by omega) c3
    exact ⟨a1, x, e, r⟩
  · obtain ⟨a1, e, r⟩ := median_swapped rk a first last _ _ _ w z y x hw hz hy hx
      (by omega) (by omega) (by omega) (by omega) (by omega) (by omega) (by omega) (by omega)
      c2 (by omega)
    exact ⟨a1, z, e, r⟩
  · omega
  · obtain ⟨a1, e, r⟩ := median_swapped rk a first last _ _ _ w y z x hw hy hz hx
      (by omega) (by omega) (by omega) (by omega) (by omega) (by omega) (by omega) (by omega)
      (by omega) (by omega)
    exact ⟨a1, y, e, r⟩

/-- The partition of a long range: the cut lies strictly inside it, the pivot
is left at `first`, and every element from the cut on is larger than the
pivot. -/
theorem unguardedPartitionPivot_spec {α : Type} [DecidableEq α] {comp : α → α → Option Bool}
    {rk : α → Nat} (a : List α) (h : RankedBy comp rk a) (first last : Nat)
    (hbig : last - first > 16) (hl : last ≤ a.length) :
    ∃ a1 cut p, unguardedPartitionPivot comp a first last = some (a1, cut)
      ∧ a1.Perm a ∧ (∀ i, i < first ∨ last ≤ i → a1[i]? = a[i]?)
      ∧ first < cut ∧ cut < last ∧ a1[first]? = some p
      ∧ ∀ i x, cut ≤ i → i < last → a1[i]? = some x → rk p < rk x := by
  obtain ⟨a0, p, h0, hp0, hfr0, hpiv, hC, hD⟩ := moveMedianToFirst_spec a h first last hbig hl
  have hlen : a0.length = a.length := hp0.length_eq
  obtain ⟨a1, cut, h1, hp1, hfr1, hc1, hc2, hc3⟩ :=
    unguardedPartition_loop_spec comp rk first last p (a0.length + 1)
      (first + 1) last a0 (h.of_perm hp0) hpiv (by omega) (Nat.le_refl _) (by omega)
      (fun i x h1 h2 _ => by omega) hC hD (by omega)
  refine ⟨a1, cut, p, ?_, hp1.trans hp0, ?_, hc1, hc2, ?_, hc3⟩
  · unfold unguardedPartitionPivot
    rw [h0]
    exact h1
  · intro i hi
    rw [hfr1 i (by omega), hfr0 i hi]
  · rw [hfr1 first (by omega)]
    exact hpiv

/-! ### Heap -/

theorem hole_move_perm {α : Type} [DecidableEq α] (b : List α) (h q : Nat) (c v : α)
    (hh : h < b.length) (hq : b[q]? = some c) (hne : q ≠ h) :
    ((b.set h c).set q v).Perm (b.set h v) := by
  rw [List.perm_iff_count]
  intro z
  obtain ⟨u, hu⟩ := exists_getElem? b h hh
  have hq2 : (b.set h c)[q]? = some c := by
    rw [List.getElem?_set_ne (fun e => hne e.symm)]; exact hq
  have h1 := count_set_add z v c (b.set h c) q hq2
  have h2 := count_set_add z c u b h hu
  have h3 := count_set_add z v u b h hu
  omega

theorem set_self_of_getElem? {α : Type} (a : List α) (i : Nat) (v : α) (h : a[i]? = some v) :
    a.set i v = a := by
  apply List.ext_getElem?
  intro k
  by_cases hk : i = k
  · subst hk
    rw [List.getElem?_set_self (List.getElem?_eq_some.mp h).1, h]
  · rw [List.getElem?_set_ne hk]

/-- The comparison of two elements of an array with a hole, away from the
hole, or of one of them with the value held back. -/
theorem RankedBy.cmp_hole {α : Type} {comp : α → α → Option Bool} {rk : α → Nat}
    {S b : List α} {h : Nat} {v : α} (hS : RankedBy comp rk S) (hp : (b.set h v).Perm S)
    {i j : Nat} {x y : α} (hi : b[i]? = some x) (hj : b[j]? = some y) (hih : i ≠ h)
    (hjh : j ≠ h) (hij : i ≠ j) :
    comp x y = some (decide (rk x < rk y)) ∧ rk x ≠ rk y := by
  have h1 : (b.set h v)[i]? = some x := by
    rw [List.getElem?_set_ne (fun e => hih e.symm)]; exact hi
  have h2 : (b.set h v)[j]? = some y := by
    rw [List.getElem?_set_ne (fun e => hjh e.symm)]; exact hj
  exact ⟨(hS.of_perm hp).cmp_at h1 h2 hij, (hS.of_perm hp).rk_ne h1 h2 hij⟩

theorem RankedBy.cmp_value {α : Type} {comp : α → α → Option Bool} {rk : α → Nat}
    {S b : List α} {h : Nat} {v : α} (hS : RankedBy comp rk S) (hp : (b.set h v).Perm S)
    (hh : h < b.length) {i : Nat} {x : α} (hi : b[i]? = some x) (hih : i ≠ h) :
    comp x v = some (decide (rk x < rk v)) ∧ rk x ≠ rk v := by
  have h1 : (b.set h v)[i]? = some x := by
    rw [List.getElem?_set_ne (fun e => hih e.symm)]; exact hi
  have h2 : (b.set h v)[h]? = some v := List.getElem?_set_self hh
  exact ⟨(hS.of_perm hp).cmp_at h1 h2 hih, (hS.of_perm hp).rk_ne h1 h2 hih⟩

theorem pushHeap_spec {α : Type} [DecidableEq α] {comp : α → α → Option Bool} {rk : α → Nat}
    (S : List α) (hS : RankedBy comp rk S) (first top : Nat) (value : α) :
    ∀ (fuel hole : Nat) (b : List α), (b.set (first + hole) value).Perm S →
      first + hole < b.length → hole < fuel →
      ∃ a1, pushHeap comp first top value fuel hole b = some a1 ∧ a1.Perm S
        ∧ (∀ i, i < first ∨ first + hole < i → a1[i]? = b[i]?)
        ∧ (top = 0 → 0 < hole →
            a1[first]? = b[first]?
              ∨ (a1[first]? = some value ∧ ∃ c, b[first]? = some c ∧ rk c < rk value)) := by
  intro fuel
  induction fuel with
  | zero => intro hole b _ _ hf; omega
  | succ fuel ih =>
    intro hole b hp hlen hfuel
    have hdone : ∃ a1, some (b.set (first + hole) value) = some a1 ∧ a1.Perm S
        ∧ (∀ i, i < first ∨ first + hole < i → a1[i]? = b[i]?)
        ∧ (top = 0 → 0 < hole →
            a1[first]? = b[first]?
              ∨ (a1[first]? = some value ∧ ∃ c, b[first]? = some c ∧ rk c < rk value)) := by
      refine ⟨_, rfl, hp, ?_, ?_⟩
      · intro i hi
        rw [List.getElem?_set_ne (by omega)]
      · intro _ h0
        left
        rw [List.getElem?_set_ne (by omega)]
    rw [pushHeap]
    by_cases hht : hole > top
    · rw [if_pos hht]
      have hpl : first + (hole - 1) / 2 < b.length := by omega
      obtain ⟨c, hc⟩ : ∃ c, b[first + (hole - 1) / 2]? = some c :=
        exists_getElem? b (first + (hole - 1) / 2) hpl
      obtain ⟨hcmp, hne⟩ := hS.cmp_value hp hlen hc (by omega)
      rw [hc]
      simp only [hcmp]
      by_cases hlt : rk c < rk value
      · simp only [hlt, decide_True]
        have hp2 : ((b.set (first + hole) c).set (first + (hole - 1) / 2) value).Perm S :=
          (hole_move_perm b _ _ c value hlen hc (by omega)).trans hp
        obtain ⟨a1, ha1, hperm, hfr, hroot⟩ :=
          ih ((hole - 1) / 2) (b.set (first + hole) c) hp2 (by simpa using hpl) (by omega)
        refine ⟨a1, ha1, hperm, ?_, ?_⟩
        · intro i hi
          rw [hfr i (by omega), List.getElem?_set_ne (by omega)]
        · intro ht0 _
          by_cases hpar : 0 < (hole - 1) / 2
          · rcases hroot ht0 hpar with h1 | ⟨h1, c2, h2, h3⟩
            · left
              rw [h1, List.getElem?_set_ne (by omega)]
            · right
              refine ⟨h1, c2, ?_, h3⟩
              rw [← h2, List.getElem?_set_ne (by omega)]
          · right
            have hz : (hole - 1) / 2 = 0 := by omega
            rw [hz] at ha1 hc
            simp only [Nat.add_zero] at ha1 hc
            have : a1 = (b.set (first + hole) c).set first value := by
              cases fuel with
              | zero => omega
              | succ k =>
                rw [pushHeap, if_neg (by omega)] at ha1
                simp only [Nat.add_zero, Option.some.injEq] at ha1
                exact ha1.symm
            refine ⟨?_, c, hc, hlt⟩
            rw [this, List.getElem?_set_self (by simpa using (by omega : first < b.length))]
      · simp only [hlt, decide_False]
        exact hdone
    · rw [if_neg hht]
      exact hdone

theorem sink_spec {α : Type} [DecidableEq α] {comp : α → α → Option Bool} {rk : α → Nat}
    (S : List α) (hS : RankedBy comp rk S) (first len : Nat) (value : α) :
    ∀ (fuel hole : Nat) (b : List α), (b.set (first + hole) value).Perm S →
      first + len ≤ b.length → hole < len → len - hole < fuel →
      ∃ b1 h1, adjustHeap.sink comp first len fuel hole b = some (b1, h1)
        ∧ (b1.set (first + h1) value).Perm S ∧ hole ≤ h1 ∧ h1 < len ∧ b1.length = b.length
        ∧ ∀ i, i < first + hole ∨ first + len ≤ i → b1[i]? = b[i]? := by
  intro fuel
  induction fuel with
  | zero => intro hole b _ _ _ hf; omega
  | succ fuel ih =>
    intro hole b hp hlen hhole hfuel
    rw [adjustHeap.sink]
    by_cases hcond : hole < (len - 1) / 2
    · rw [if_pos hcond]
      have hrl : first + 2 * (hole + 1) < b.length := by omega
      have hll : first + (2 * (hole + 1) - 1) < b.length := by omega
      obtain ⟨r, hr⟩ : ∃ r, b[first + 2 * (hole + 1)]? = some r :=
        exists_getElem? b (first + 2 * (hole + 1)) hrl
      obtain ⟨l, hl⟩ : ∃ l, b[first + (2 * (hole + 1) - 1)]? = some l :=
        exists_getElem? b (first + (2 * (hole + 1) - 1)) hll
      obtain ⟨hcmp, _⟩ := hS.cmp_hole hp hr hl (by omega) (by omega) (by omega)
      rw [hr, hl]
      simp only [hcmp]
      by_cases hlt : rk r < rk l
      · simp only [hlt, decide_True]
        have hp2 : ((b.set (first + hole) l).set (first + (2 * (hole + 1) - 1)) value).Perm S :=
          (hole_move_perm b _ _ l value (by omega) hl (by omega)).trans hp
        obtain ⟨b1, h1, hres, hperm, hh1, hh2, hlen1, hfr⟩ :=
          ih (2 * (hole + 1) - 1) (b.set (first + hole) l) hp2 (by simpa using hlen)
            (by omega) (by omega)
        refine ⟨b1, h1, hres, hperm, by omega, hh2, by simpa using hlen1, ?_⟩
        intro i hi
        rw [hfr i (by omega), List.getElem?_set_ne (by omega)]
      · simp only [hlt, decide_False]
        have hp2 : ((b.set (first + hole) r).set (first + 2 * (hole + 1)) value).Perm S :=
          (hole_move_perm b _ _ r value (by omega) hr (by omega)).trans hp
        obtain ⟨b1, h1, hres, hperm, hh1, hh2, hlen1, hfr⟩ :=
          ih (2 * (hole + 1)) (b.set (first + hole) r) hp2 (by simpa using hlen)
            (by omega) (by omega)
        refine ⟨b1, h1, hres, hperm, by omega, hh2, by simpa using hlen1, ?_⟩
        intro i hi
        rw [hfr i (by omega), List.getElem?_set_ne (by omega)]
    · rw [if_neg hcond]
      exact ⟨b, hole, rfl, hp, Nat.le_refl _, hhole, rfl, fun _ _ => rfl⟩

/-- The first step of the sink from the root of a heap of at least three
elements: the larger child moves to the root and the smaller stays. -/
theorem sink_root {α : Type} [DecidableEq α] {comp : α → α → Option Bool} {rk : α → Nat}
    (S : List α) (hS : RankedBy comp rk S) (first len : Nat) (value : α)
    (fuel : Nat) (b : List α) (hp : (b.set (first + 0) value).Perm S)
    (hlen : first + len ≤ b.length) (h3 : 3 ≤ len) (hfuel : len < fuel) :
    ∃ b1 h1 c xs s, adjustHeap.sink comp first len fuel 0 b = some (b1, h1)
      ∧ (b1.set (first + h1) value).Perm S ∧ 0 < h1 ∧ h1 < len ∧ b1.length = b.length
      ∧ (∀ i, i < first ∨ first + len ≤ i → b1[i]? = b[i]?)
      ∧ b1[first]? = some c ∧ 0 < s ∧ s < len ∧ b[first + s]? = some xs ∧ rk xs < rk c := by
  obtain ⟨f, rfl⟩ : ∃ f, fuel = f + 1 := ⟨fuel - 1, by omega⟩
  rw [adjustHeap.sink, if_pos (by omega)]
  have hrl : first + 2 * (0 + 1) < b.length := by omega
  have hll : first + (2 * (0 + 1) - 1) < b.length := by omega
  obtain ⟨r, hr⟩ : ∃ r, b[first + 2 * (0 + 1)]? = some r :=
    exists_getElem? b (first + 2 * (0 + 1)) hrl
  obtain ⟨l, hl⟩ : ∃ l, b[first + (2 * (0 + 1) - 1)]? = some l :=
    exists_getElem? b (first + (2 * (0 + 1) - 1)) hll
  obtain ⟨hcmp, hne⟩ := hS.cmp_hole hp hr hl (by omega) (by omega) (by omega)
  rw [hr, hl]
  simp only [hcmp]
  by_cases hlt : rk r < rk l
  · simp only [hlt, decide_True]
    have hp2 : ((b.set (first + 0) l).set (first + (2 * (0 + 1) - 1)) value).Perm S :=
      (hole_move_perm b _ _ l value (by omega) hl (by omega)).trans hp
    obtain ⟨b1, h1, hres, hperm, hh1, hh2, hlen1, hfr⟩ :=
      sink_spec S hS first len value f (2 * (0 + 1) - 1) (b.set (first + 0) l) hp2
        (by simpa using hlen) (by omega) (by omega)
    refine ⟨b1, h1, l, r, 2, hres, hperm, by omega, hh2, by simpa using hlen1, ?_, ?_,
      by omega, by omega, hr, hlt⟩
    · intro i hi
      rw [hfr i (by omega), List.getElem?_set_ne (by omega)]
    · rw [hfr first (by omega)]
      exact List.getElem?_set_self (by omega)
  · simp only [hlt, decide_False]
    have hp2 : ((b.set (first + 0) r).set (first + 2 * (0 + 1)) value).Perm S :=
      (hole_move_perm b _ _ r value (by omega) hr (by omega)).trans hp
    obtain ⟨b1, h1, hres, hperm, hh1, hh2, hlen1, hfr⟩ :=
      sink_spec S hS first len value f (2 * (0 + 1)) (b.set (first + 0) r) hp2
        (by simpa using hlen) (by omega) (by omega)
    refine ⟨b1, h1, r, l, 1, hres, hperm, by omega, hh2, by simpa using hlen1, ?_, ?_,
      by omega, by omega, hl, by omega⟩
    · intro i hi
      rw [hfr i (by omega), List.getElem?_set_ne (by omega)]
    · rw [hfr first (by omega)]
      exact List.getElem?_set_self (by omega)

/-- The function `__adjust_heap` only rearranges the range it is given. -/
theorem adjustHeap_spec {α : Type} [DecidableEq α] {comp : α → α → Option Bool} {rk : α → Nat}
    (S : List α) (hS : RankedBy comp rk S) (a : List α) (first hole len : Nat) (value : α)
    (hp : (a.set (first + hole) value).Perm S) (hlen : first + len ≤ a.length)
    (hhole : hole < len) :
    ∃ a1, adjustHeap comp a first hole len value = some a1 ∧ a1.Perm S
      ∧ ∀ i, i < first ∨ first + len ≤ i → a1[i]? = a[i]? := by
  obtain ⟨b1, h1, hres, hperm, hh1, hh2, hlen1, hfr⟩ :=
    sink_spec S hS first len value (len + 1) hole a hp hlen hhole (by omega)
  unfold adjustHeap
  rw [hres]
  simp only
  by_cases hc : len % 2 = 0 ∧ h1 = (len - 2) / 2
  · rw [if_pos hc]
    have hll : first + (2 * (h1 + 1) - 1) < b1.length := by omega
    obtain ⟨l, hl⟩ : ∃ l, b1[first + (2 * (h1 + 1) - 1)]? = some l :=
      exists_getElem? b1 (first + (2 * (h1 + 1) - 1)) hll
    rw [hl]
    simp only
    have hp2 : ((b1.set (first + h1) l).set (first + (2 * (h1 + 1) - 1)) value).Perm S :=
      (hole_move_perm b1 _ _ l value (by omega) hl (by omega)).trans hperm
    obtain ⟨a1, ha1, hperm1, hfr1, _⟩ :=
      pushHeap_spec S hS first hole value (len + 1) (2 * (h1 + 1) - 1)
        (b1.set (first + h1) l) hp2 (by simpa using hll) (by omega)
    refine ⟨a1, ha1, hperm1, ?_⟩
    intro i hi
    rw [hfr1 i (by omega), List.getElem?_set_ne (by omega), hfr i (by omega)]
  · rw [if_neg hc]
    obtain ⟨a1, ha1, hperm1, hfr1, _⟩ :=
      pushHeap_spec S hS first hole value (len + 1) h1 b1 hperm (by omega) (by omega)
    refine ⟨a1, ha1, hperm1, ?_⟩
    intro i hi
    rw [hfr1 i (by omega), hfr i (by omega)]

/-- After `__adjust_heap` from the root of at least three elements the root is
larger than some other element of the heap. -/
theorem adjustHeap_root {α : Type} [DecidableEq α] {comp : α → α → Option Bool} {rk : α → Nat}
    (S : List α) (hS : RankedBy comp rk S) (a : List α) (first len : Nat) (value : α)
    (hp : (a.set (first + 0) value).Perm S) (hlen : first + len ≤ a.length) (h3 : 3 ≤ len)
    (a1 : List α) (ha1 : adjustHeap comp a first 0 len value = some a1) :
    ∃ j x r, 0 < j ∧ j < len ∧ a1[first]? = some r ∧ a1[first + j]? = some x
      ∧ rk x < rk r := by
  obtain ⟨a2, ha2, hperm2, hfr2⟩ := adjustHeap_spec S hS a first 0 len value hp hlen (by omega)
  rw [ha1] at ha2
  simp only [Option.some.injEq] at ha2
  subst ha2
  obtain ⟨b1, h1, c, xs, s, hres, hperm, hh1, hh2, hlen1, hfr, hc, hs0, hsl, hxs, hlt⟩ :=
    sink_root S hS first len value (len + 1) a hp hlen h3 (by omega)
  -- the root after the push
  have hroot : ∃ r, a1[first]? = some r ∧ rk c ≤ rk r := by
    unfold adjustHeap at ha1
    rw [hres] at ha1
    simp only at ha1
    by_cases hcase : len % 2 = 0 ∧ h1 = (len - 2) / 2
    · rw [if_pos hcase] at ha1
      have hll : first + (2 * (h1 + 1) - 1) < b1.length := by omega
      obtain ⟨l, hl⟩ : ∃ l, b1[first + (2 * (h1 + 1) - 1)]? = some l :=
        exists_getElem? b1 (first + (2 * (h1 + 1) - 1)) hll
      rw [hl] at ha1
      simp only at ha1
      have hp2 : ((b1.set (first + h1) l).set (first + (2 * (h1 + 1) - 1)) value).Perm S :=
        (hole_move_perm b1 _ _ l value (by omega) hl (by omega)).trans hperm
      obtain ⟨a3, ha3, _, _, hroot⟩ :=
        pushHeap_spec S hS first 0 value (len + 1) (2 * (h1 + 1) - 1)
          (b1.set (first + h1) l) hp2 (by simpa using hll) (by omega)
      rw [ha1] at ha3
      simp only [Option.some.injEq] at ha3
      subst ha3
      have hb : (b1.set (first + h1) l)[first]? = some c := by
        rw [List.getElem?_set_ne (by omega)]; exact hc
      rcases hroot rfl (by omega) with e | ⟨e, c2, e2, e3⟩
      · exact ⟨c, by rw [e, hb], Nat.le_refl _⟩
      · rw [hb] at e2
        simp only [Option.some.injEq] at e2
        subst e2
        exact ⟨value, e, by omega⟩
    · rw [if_neg hcase] at ha1
      obtain ⟨a3, ha3, _, _, hroot⟩ :=
        pushHeap_spec S hS first 0 value (len + 1) h1 b1 hperm (by omega) (by omega)
      rw [ha1] at ha3
      simp only [Option.some.injEq] at ha3
      subst ha3
      rcases hroot rfl hh1 with e | ⟨e, c2, e2, e3⟩
      · exact ⟨c, by rw [e, hc], Nat.le_refl _⟩
      · rw [hc] at e2
        simp only [Option.some.injEq] at e2
        subst e2
        exact ⟨value, e, by omega⟩
  obtain ⟨r, hr, hcr⟩ := hroot
  -- the smaller child is still in the heap
  have hF : (a.set (first + 0) value)[first + s]? = some xs := by
    rw [List.getElem?_set_ne (by omega)]; exact hxs
  have hxsS : xs ∈ S := hp.subset (List.mem_iff_getElem?.mpr ⟨_, hF⟩)
  obtain ⟨j, hj⟩ := List.mem_iff_getElem?.mp (hperm2.symm.subset hxsS)
  have hjf : j ≠ first := by
    intro e
    subst e
    rw [hr] at hj
    simp only [Option.some.injEq] at hj
    subst hj
    omega
  have hin : first ≤ j ∧ j < first + len := by
    by_contra hout
    have hj2 : a[j]? = some xs := by rw [← hfr2 j (by omega)]; exact hj
    have hF2 : (a.set (first + 0) value)[j]? = some xs := by
      rw [List.getElem?_set_ne (by omega)]; exact hj2
    obtain ⟨k1, k2⟩ := List.getElem?_eq_some.mp hF
    obtain ⟨k3, k4⟩ := List.getElem?_eq_some.mp hF2
    have := (List.Nodup.getElem_inj_iff (hS.of_perm hp).nodup).mp (k2.trans k4.symm)
    omega
  refine ⟨j - first, xs, r, by omega, by omega, hr, ?_, by omega⟩
  rw [show first + (j - first) = j by omega]
  exact hj

theorem makeHeap_loop_spec {α : Type} [DecidableEq α] {comp : α → α → Option Bool}
    {rk : α → Nat} (S : List α) (hS : RankedBy comp rk S) (first len : Nat) :
    ∀ (parent : Nat) (a : List α), a.Perm S → first + len ≤ a.length → parent < len →
      ∃ a1, makeHeap.loop comp first len parent a = some a1 ∧ a1.Perm S
        ∧ (∀ i, i < first ∨ first + len ≤ i → a1[i]? = a[i]?)
        ∧ (3 ≤ len → RootAbove rk a1 first len) := by
  intro parent
  induction parent with
  | zero =>
    intro a hp hlen hpar
    obtain ⟨value, hv⟩ : ∃ v, a[first + 0]? = some v :=
      exists_getElem? a (first + 0) (by omega)
    have hfill : (a.set (first + 0) value).Perm S := by
      rw [set_self_of_getElem? a _ value hv]; exact hp
    obtain ⟨a1, ha1, hperm, hfr⟩ := adjustHeap_spec S hS a first 0 len value hfill hlen hpar
    refine ⟨a1, ?_, hperm, hfr, ?_⟩
    · unfold makeHeap.loop
      rw [hv]
      simp only [ha1]
    · intro h3
      exact adjustHeap_root S hS a first len value hfill hlen h3 a1 ha1
  | succ p ih =>
    intro a hp hlen hpar
    obtain ⟨value, hv⟩ : ∃ v, a[first + (p + 1)]? = some v :=
      exists_getElem? a (first + (p + 1)) (by omega)
    have hfill : (a.set (first + (p + 1)) value).Perm S := by
      rw [set_self_of_getElem? a _ value hv]; exact hp
    obtain ⟨a1, ha1, hperm, hfr⟩ :=
      adjustHeap_spec S hS a first (p + 1) len value hfill hlen hpar
    obtain ⟨a2, ha2, hperm2, hfr2, hroot⟩ :=
      ih a1 hperm (by rw [hperm.length_eq, ← hp.length_eq]; exact hlen) (by omega)
    refine ⟨a2, ?_, hperm2, ?_, hroot⟩
    · unfold makeHeap.loop
      rw [hv]
      simp only [ha1]
      exact ha2
    · intro i hi
      rw [hfr2 i hi, hfr i hi]

theorem makeHeap_spec {α : Type} [DecidableEq α] {comp : α → α → Option Bool}
    {rk : α → Nat} (S : List α) (hS : RankedBy comp rk S) (a : List α) (first last : Nat)
    (hp : a.Perm S) (hfl : first ≤ last) (hlen : last ≤ a.length) :
    ∃ a1, makeHeap comp a first last = some a1 ∧ a1.Perm S
      ∧ (∀ i, i < first ∨ last ≤ i → a1[i]? = a[i]?)
      ∧ (3 ≤ last - first → RootAbove rk a1 first (last - first)) := by
  unfold makeHeap
  by_cases h2 : last - first < 2
  · rw [if_pos h2]
    exact ⟨a, rfl, hp, fun _ _ => rfl, fun h3 => by omega⟩
  · rw [if_neg h2]
    obtain ⟨a1, ha1, hperm, hfr, hroot⟩ :=
      makeHeap_loop_spec S hS first (last - first) ((last - first - 2) / 2) a hp
        (by omega) (by omega)
    exact ⟨a1, ha1, hperm, fun i hi => hfr i (by omega), hroot⟩

theorem popHeap_spec {α : Type} [DecidableEq α] {comp : α → α → Option Bool}
    {rk : α → Nat} (S : List α) (hS : RankedBy comp rk S) (a : List α) (first len : Nat)
    (hp : a.Perm S) (hlen : first + len < a.length) (hpos : 0 < len) :
    ∃ a1 top, popHeap comp a first (first + len) (first + len) = some a1 ∧ a1.Perm S
      ∧ a[first]? = some top ∧ a1[first + len]? = some top
      ∧ (∀ i, i < first ∨ first + len < i → a1[i]? = a[i]?)
      ∧ (3 ≤ len → RootAbove rk a1 first len) := by
  obtain ⟨value, hv⟩ : ∃ v, a[first + len]? = some v :=
    exists_getElem? a (first + len) hlen
  obtain ⟨top, ht⟩ : ∃ v, a[first]? = some v :=
    exists_getElem? a (first) (by omega)
  have hfill : ((a.set (first + len) top).set (first + 0) value).Perm S :=
    (set_set_perm a (first + len) (first + 0) value top hv (by simpa using ht)).trans hp
  have hl2 : first + len ≤ (a.set (first + len) top).length := by
    rw [List.length_set]; omega
  obtain ⟨a1, ha1, hperm, hfr⟩ :=
    adjustHeap_spec S hS (a.set (first + len) top) first 0 len value hfill hl2 hpos
  have hres : popHeap comp a first (first + len) (first + len) = some a1 := by
    unfold popHeap
    rw [hv, ht]
    simp only
    rw [show first + len - first = len by omega]
    exact ha1
  refine ⟨a1, top, hres, hperm, ht, ?_, ?_, ?_⟩
  · rw [hfr (first + len) (by omega)]
    exact List.getElem?_set_self hlen
  · intro i hi
    rw [hfr i (by omega), List.getElem?_set_ne (by omega)]
  · intro h3
    exact adjustHeap_root S hS _ first len value hfill hl2 h3 a1 ha1

/-- The function `__sort_heap` leaves every element from the seventeenth on
behind a smaller one. -/
theorem sortHeap_spec {α : Type} [DecidableEq α] {comp : α → α → Option Bool}
    {rk : α → Nat} (S : List α) (hS : RankedBy comp rk S) (first : Nat) :
    ∀ (len : Nat) (a : List α), a.Perm S → first + len ≤ a.length →
      (3 ≤ len → RootAbove rk a first len) →
      ∃ a1, sortHeap comp first len a = some a1 ∧ a1.Perm S
        ∧ (∀ i, i < first ∨ first + len ≤ i → a1[i]? = a[i]?)
        ∧ ∀ i y, 16 ≤ i → i < len → a1[first + i]? = some y →
            ∃ j x, j < i ∧ a1[first + j]? = some x ∧ rk x < rk y := by
  intro len
  induction len with
  | zero =>
    intro a hp _ _
    exact ⟨a, rfl, hp, fun _ _ => rfl, fun i y _ hi _ => by omega⟩
  | succ len ih =>
    intro a hp hlen hroot
    rw [sortHeap]
    by_cases h1 : len + 1 > 1
    · rw [if_pos h1]
      obtain ⟨a1, top, ha1, hperm1, htop, htop1, hfr1, hroot1⟩ :=
        popHeap_spec S hS a first len hp (by omega) (by omega)
      have hl1 : first + len ≤ a1.length := by
        rw [hperm1.length_eq, ← hp.length_eq]; omega
      obtain ⟨a2, ha2, hperm2, hfr2, hW2⟩ := ih a1 hperm1 hl1 hroot1
      refine ⟨a2, ?_, hperm2, ?_, ?_⟩
      · rw [ha1]
        exact ha2
      · intro i hi
        rw [hfr2 i (by omega), hfr1 i (by omega)]
      · intro i y h16 hi hy
        by_cases hil : i < len
        · exact hW2 i y h16 hil hy
        · have hie : i = len := by omega
          subst hie
          have hy2 : y = top := by
            rw [hfr2 (first + i) (by omega), htop1] at hy
            simp only [Option.some.injEq] at hy
            exact hy.symm
          subst hy2
          obtain ⟨j0, x, r, hj0, hj0l, hr, hx, hxr⟩ := hroot (by omega)
          rw [htop] at hr
          simp only [Option.some.injEq] at hr
          subst hr
          -- x stays below position `first + i`
          obtain ⟨j1, hj1a, hj1b, hj1⟩ :=
            stays_in_range a a1 (hS.of_perm hp) (hperm1.trans hp.symm) first (first + i + 1)
              (fun k hk => hfr1 k (by omega)) (first + j0) x hx (by omega) (by omega)
          have hj1ne : j1 ≠ first + i := by
            intro e
            subst e
            rw [htop1] at hj1
            simp only [Option.some.injEq] at hj1
            subst hj1
            omega
          obtain ⟨j2, hj2a, hj2b, hj2⟩ :=
            stays_in_range a1 a2 (hS.of_perm hperm1) (hperm2.trans hperm1.symm) first
              (first + i) (fun k hk => hfr2 k (by omega)) j1 x hj1 hj1a (by omega)
          refine ⟨j2 - first, x, by omega, ?_, hxr⟩
          rw [show first + (j2 - first) = j2 by omega]
          exact hj2
    · rw [if_neg h1]
      exact ⟨a, rfl, hp, fun _ _ => rfl, fun i y _ hi _ => by omega⟩

/-- The heap sort of a whole range, `__partial_sort(first, last, last)`. -/
theorem partialSort_spec {α : Type} [DecidableEq α] {comp : α → α → Option Bool}
    {rk : α → Nat} (S : List α) (hS : RankedBy comp rk S) (a : List α) (first last : Nat)
    (hp : a.Perm S) (hfl : first ≤ last) (hlen : last ≤ a.length) :
    ∃ a1, partialSort comp a first last last = some a1 ∧ a1.Perm S
      ∧ (∀ i, i < first ∨ last ≤ i → a1[i]? = a[i]?)
      ∧ ∀ i y, first + 16 ≤ i → i < last → a1[i]? = some y →
          ∃ j x, first ≤ j ∧ j < i ∧ a1[j]? = some x ∧ rk x < rk y := by
  obtain ⟨a1, ha1, hperm1, hfr1, hroot1⟩ := makeHeap_spec S hS a first last hp hfl hlen
  have hl1 : first + (last - first) ≤ a1.length := by
    rw [hperm1.length_eq, ← hp.length_eq]; omega
  obtain ⟨a2, ha2, hperm2, hfr2, hW⟩ := sortHeap_spec S hS first (last - first) a1 hperm1 hl1 hroot1
  refine ⟨a2, ?_, hperm2, ?_, ?_⟩
  · unfold partialSort
    rw [ha1]
    simp only [Nat.sub_self, heapSelect.loop]
    exact ha2
  · intro i hi
    rw [hfr2 i (by omega), hfr1 i hi]
  · intro i y h16 hil hy
    obtain ⟨j, x, hj, hx, hxy⟩ := hW (i - first) y (by omega) (by omega)
      (by rw [show first + (i - first) = i by omega]; exact hy)
    exact ⟨first + j, x, by omega, by omega, hx, hxy⟩

/-! ### The sort -/

theorem introsortLoop_spec {α : Type} [DecidableEq α] {comp : α → α → Option Bool}
    {rk : α → Nat} (S : List α) (hS : RankedBy comp rk S) :
    ∀ (depth first last : Nat) (a : List α), a.Perm S → first ≤ last → last ≤ a.length →
      ∃ a1, introsortLoop comp depth first last a = some a1 ∧ a1.Perm S
        ∧ (∀ i, i < first ∨ last ≤ i → a1[i]? = a[i]?)
        ∧ ∀ i y, first + 16 ≤ i → i < last → a1[i]? = some y →
            ∃ j x, first ≤ j ∧ j < i ∧ a1[j]? = some x ∧ rk x < rk y := by
  intro depth
  induction depth with
  | zero =>
    intro first last a hp hfl hlen
    rw [introsortLoop]
    by_cases hbig : last - first > 16
    · rw [if_pos hbig]
      exact partialSort_spec S hS a first last hp hfl hlen
    · rw [if_neg hbig]
      exact ⟨a, rfl, hp, fun _ _ => rfl, fun i y h1 h2 _ => by omega⟩
  | succ depth ih =>
    intro first last a hp hfl hlen
    rw [introsortLoop]
    by_cases hbig : last - first > 16
    · rw [if_pos hbig]
      obtain ⟨a1, cut, p, h1, hp1, hfr1, hc1, hc2, hpiv, hright⟩ :=
        unguardedPartitionPivot_spec a (hS.of_perm hp) first last hbig hlen
      have hp1S : a1.Perm S := hp1.trans hp
      have hl1 : last ≤ a1.length := by rw [hp1.length_eq]; exact hlen
      obtain ⟨a2, h2, hp2, hfr2, _⟩ := ih cut last a1 hp1S (by omega) hl1
      have hl2 : cut ≤ a2.length := by rw [hp2.length_eq, ← hp1S.length_eq]; omega
      obtain ⟨a3, h3, hp3, hfr3, hW3⟩ := ih first cut a2 hp2 (by omega) hl2
      refine ⟨a3, ?_, hp3, ?_, ?_⟩
      · rw [h1]
        simp only [h2]
        exact h3
      · intro i hi
        rw [hfr3 i (by omega), hfr2 i (by omega), hfr1 i hi]
      · intro i y h16 hil hy
        by_cases hic : i < cut
        · obtain ⟨j, x, hj1, hj2, hx, hxy⟩ := hW3 i y h16 hic hy
          exact ⟨j, x, hj1, hj2, hx, hxy⟩
        · have hy2 : a2[i]? = some y := by rw [← hfr3 i (by omega)]; exact hy
          obtain ⟨k, hk1, hk2, hk⟩ :=
            stays_in_range a2 a1 (hS.of_perm hp2) (hp1S.trans hp2.symm) cut last
              (fun k hk => (hfr2 k hk).symm) i y hy2 (by omega) hil
          have hpy : rk p < rk y := hright k y hk1 hk2 hk
          have hpiv2 : a2[first]? = some p := by rw [hfr2 first (by omega)]; exact hpiv
          obtain ⟨j, hj1, hj2, hj⟩ :=
            stays_in_range a2 a3 (hS.of_perm hp2) (hp3.trans hp2.symm) first cut
              hfr3 first p hpiv2 (Nat.le_refl _) hc1
          exact ⟨j, p, hj1, by omega, hj, hpy⟩
    · rw [if_neg hbig]
      exact ⟨a, rfl, hp, fun _ _ => rfl, fun i y h1 h2 _ => by omega⟩

/-- On a range whose elements the comparator ranks one to one, the GNU sort
returns, and returns the elements in increasing rank. -/
theorem gnuSort_sorted {α : Type} [DecidableEq α] {comp : α → α → Option Bool}
    {rk : α → Nat} (S : List α) (hS : RankedBy comp rk S) (a : List α) (hp : a.Perm S) :
    ∃ q, gnuSort comp a = some q ∧ q.Pairwise (fun x y => rk x < rk y) ∧ q.Perm S := by
  unfold gnuSort
  by_cases h0 : a.length = 0
  · rw [if_pos h0]
    have : a = [] := List.length_eq_zero.mp h0
    subst this
    exact ⟨[], rfl, List.Pairwise.nil, hp⟩
  · rw [if_neg h0]
    obtain ⟨a1, h1, hp1, _, hW⟩ :=
      introsortLoop_spec S hS (lg a.length a.length * 2) 0 a.length a hp (Nat.zero_le _)
        (Nat.le_refl _)
    have hlen : a1.length = a.length := by rw [hp1.length_eq, hp.length_eq]
    have hne : a1 ≠ [] := by
      intro e; rw [e] at hlen; simp at hlen; omega
    obtain ⟨q, hq, hqs, hqp⟩ := finalInsertionSort_sorted comp rk a1
      (hS.of_perm hp1) hne
      (fun i y h16 hy => by
        have hil : i < a.length := by
          rw [← hlen]; exact (List.getElem?_eq_some.mp hy).1
        obtain ⟨j, x, _, hj, hx, hxy⟩ := hW i y (by omega) hil hy
        exact ⟨j, x, hj, hx, hxy⟩)
    rw [h1]
    simp only
    rw [← hlen]
    exact ⟨q, hq, hqs, hqp.trans hp1⟩

theorem pairwise_of_strictlyOrdered {α : Type} (comp : α → α → Option Bool) (l : List α)
    (h : strictlyOrdered comp l = true) :
    l.Pairwise (fun x y => comp x y = some true ∧ comp y x = some false) := by
  induction l with
  | nil => exact List.Pairwise.nil
  | cons x rest ih =>
    rw [strictlyOrdered, Bool.and_eq_true, List.all_eq_true] at h
    refine List.Pairwise.cons ?_ (ih h.2)
    intro y hy
    have := h.1 y hy
    simpa using this

/-- The arrangement the comparator orders strictly ranks its elements by their
position. -/
theorem rankedBy_indexOf {α : Type} [DecidableEq α] (comp : α → α → Option Bool)
    (t : List α) (h : t.Pairwise (fun x y => comp x y = some true ∧ comp y x = some false)) :
    RankedBy comp (fun x => t.indexOf x) t
      ∧ t.Pairwise (fun x y => t.indexOf x < t.indexOf y) := by
  have hnd : t.Nodup := by
    refine List.Pairwise.imp ?_ h
    intro x y hxy e
    subst e
    have := hxy.1.symm.trans hxy.2
    simp at this
  have hget := List.pairwise_iff_getElem.mp h
  refine ⟨⟨hnd, fun x hx y hy e => (List.indexOf_inj hx hy).mp e, ?_⟩, ?_⟩
  · intro x hx y hy hxy
    have hi : t.indexOf x < t.length := List.indexOf_lt_length.mpr hx
    have hj : t.indexOf y < t.length := List.indexOf_lt_length.mpr hy
    have hxi : t[t.indexOf x] = x := List.getElem_indexOf hi
    have hyj : t[t.indexOf y] = y := List.getElem_indexOf hj
    have hne : t.indexOf x ≠ t.indexOf y := fun e => hxy ((List.indexOf_inj hx hy).mp e)
    by_cases hlt : t.indexOf x < t.indexOf y
    · have := (hget _ _ hi hj hlt).1
      rw [hxi, hyj] at this
      simp [this, hlt]
    · have := (hget _ _ hj hi (by omega)).2
      rw [hxi, hyj] at this
      simp [this, hlt]
  · rw [List.pairwise_iff_getElem]
    intro i j hi hj hij
    rw [List.indexOf_getElem hnd i hi, List.indexOf_getElem hnd j hj]
    exact hij

/-- Handed any arrangement of a range that the comparator puts in a strict
total order, the GNU sort returns the arrangement in that order. -/
theorem gnuSort_of_strictlyOrdered {α : Type} [DecidableEq α] (comp : α → α → Option Bool)
    (l t : List α) (hperm : l.Perm t) (ho : strictlyOrdered comp t = true) :
    gnuSort comp l = some t := by
  obtain ⟨hS, ht⟩ := rankedBy_indexOf comp t (pairwise_of_strictlyOrdered comp t ho)
  obtain ⟨q, hq, hqs, hqp⟩ := gnuSort_sorted t hS l hperm
  have hanti : IsAntisymm α (fun x y => t.indexOf x < t.indexOf y) :=
    ⟨fun _ _ h1 h2 => absurd h1 (Nat.lt_asymm h2)⟩
  rw [hq, List.eq_of_perm_of_sorted hqp hqs ht]

/-! ### Short ranges, any comparator -/

theorem split_last_false {α : Type} (comp : α → α → Option Bool) (val : α) :
    ∀ p : List α, (∀ y ∈ p, (comp val y).isSome = true) → (∃ y ∈ p, comp val y = some false) →
      ∃ pre s mid, p = pre ++ [s] ++ mid ∧ comp val s = some false
        ∧ ∀ m ∈ mid, comp val m = some true := by
  intro p
  induction p using List.reverseRecOn with
  | nil => intro _ h; obtain ⟨y, hy, _⟩ := h; simp at hy
  | append_singleton p z ih =>
    intro hsome hex
    rcases hc : comp val z with _ | b
    · have := hsome z (by simp)
      rw [hc] at this
      simp at this
    · cases b with
      | false => exact ⟨p, z, [], by simp, hc, by simp⟩
      | true =>
        obtain ⟨y, hy, hyf⟩ := hex
        have hyp : y ∈ p := by
          rcases List.mem_append.mp hy with h | h
          · exact h
          · simp only [List.mem_singleton] at h
            subst h
            rw [hc] at hyf
            simp at hyf
        obtain ⟨pre, s, mid, he, hs, hmid⟩ :=
          ih (fun y hy => hsome y (by simp [hy])) ⟨y, hyp, hyf⟩
        refine ⟨pre, s, mid ++ [z], by simp [he], hs, ?_⟩
        intro m hm
        rcases List.mem_append.mp hm with h | h
        · exact hmid m h
        · simp only [List.mem_singleton] at h
          subst h
          exact hc

theorem insertionSort_loop_perm {α : Type} (comp : α → α → Option Bool) :
    ∀ (rest p tail : List α), p ≠ [] →
      (∀ x ∈ p ++ rest, ∀ y ∈ p ++ rest, (comp x y).isSome = true) →
      ∃ q, insertionSort.loop comp 0 rest.length p.length (p ++ rest ++ tail) = some (q ++ tail)
        ∧ q.Perm (p ++ rest) := by
  intro rest
  induction rest with
  | nil =>
    intro p tail _ _
    exact ⟨p, by simp [insertionSort.loop], by simp⟩
  | cons val rest ih =>
    intro p tail hp hsome
    obtain ⟨x, p1, rfl⟩ : ∃ x p1, p = x :: p1 := List.exists_cons_of_ne_nil hp
    have hshape : (x :: p1) ++ val :: rest ++ tail = (x :: p1) ++ val :: (rest ++ tail) := by simp
    have hval : ((x :: p1) ++ val :: rest ++ tail)[(x :: p1).length]? = some val := by
      rw [hshape]; exact getElem?_append_cons _ _ _ _ rfl
    have hx : ((x :: p1) ++ val :: rest ++ tail)[0]? = some x := by simp
    have hsome2 : ∀ q : List α, q.Perm ((x :: p1) ++ [val]) →
        ∀ u ∈ q ++ rest, ∀ v ∈ q ++ rest, (comp u v).isSome = true := by
      intro q hq u hu v hv
      have hmem : ∀ w, w ∈ q ++ rest → w ∈ (x :: p1) ++ val :: rest := by
        intro w hw
        rcases List.mem_append.mp hw with h | h
        · have := hq.subset h
          simp only [List.mem_append, List.mem_cons, List.mem_singleton,
            List.not_mem_nil, or_false] at this ⊢
          tauto
        · simp [h]
      exact hsome u (hmem u hu) v (hmem v hv)
    rw [List.length_cons (a := val), insertionSort.loop, hval, hx]
    simp only
    rcases hc : comp val x with _ | b
    · have := hsome val (by simp) x (by simp)
      rw [hc] at this
      simp at this
    · cases b with
      | true =>
        simp only
        have harr : List.take 0 ((x :: p1) ++ val :: rest ++ tail)
            ++ val :: (List.take ((x :: p1).length - 0)
                (List.drop 0 ((x :: p1) ++ val :: rest ++ tail))
              ++ List.drop ((x :: p1).length + 1) ((x :: p1) ++ val :: rest ++ tail))
            = (val :: x :: p1) ++ rest ++ tail := by
          have h2 : List.drop ((x :: p1).length + 1) ((x :: p1) ++ val :: (rest ++ tail))
              = rest ++ tail := by
            rw [List.drop_append_eq_append_drop]
            simp
          have h1 : List.take ((x :: p1).length) ((x :: p1) ++ val :: (rest ++ tail))
              = x :: p1 := by
            rw [List.take_append_eq_append_take]
            simp
          rw [hshape]
          simp only [Nat.sub_zero, List.drop_zero, List.take_zero, List.nil_append]
          rw [h1, h2]
          simp
        rw [harr]
        have hq0 : (val :: x :: p1).Perm ((x :: p1) ++ [val]) :=
          (List.perm_append_singleton val (x :: p1)).symm
        obtain ⟨q, hq, hqp⟩ := ih (val :: x :: p1) tail (by simp) (hsome2 _ hq0)
        refine ⟨q, by simpa using hq, hqp.trans ?_⟩
        simpa using (@List.perm_middle _ val (x :: p1) rest).symm
      | false =>
        simp only
        obtain ⟨pre, s, mid, he, hs, hmid⟩ := split_last_false comp val (x :: p1)
          (fun y hy => hsome val (by simp) y (List.mem_append_left _ hy))
          ⟨x, by simp, hc⟩
        have hins : unguardedLinearInsert comp ((x :: p1) ++ val :: (rest ++ tail))
            (x :: p1).length = some ((pre ++ [s] ++ val :: mid) ++ (rest ++ tail)) := by
          unfold unguardedLinearInsert
          rw [← hshape, hval]
          simp only
          have := unguardedLinearInsert_loop_eq comp val s pre hs mid val (rest ++ tail) hmid
          rw [hshape, he, List.length_append, this]
        rw [hshape, hins]
        simp only
        have hq1 : (pre ++ [s] ++ val :: mid).Perm ((x :: p1) ++ [val]) := by
          rw [he]
          exact List.perm_middle.trans (List.perm_append_singleton val _).symm
        have hlen : (pre ++ [s] ++ val :: mid).length = (x :: p1).length + 1 := by
          rw [hq1.length_eq]; simp
        obtain ⟨q, hq, hqp⟩ := ih (pre ++ [s] ++ val :: mid) tail (by simp) (hsome2 _ hq1)
        refine ⟨q, ?_, hqp.trans ?_⟩
        · rw [← hlen, ← List.append_assoc]
          exact hq
        · have := List.Perm.append_right rest hq1
          simpa using this

/-- Up to 16 elements the GNU sort is the guarded insertion sort: whatever the
comparator answers, it returns and only rearranges the range. -/
theorem gnuSort_perm_of_short {α : Type} (comp : α → α → Option Bool) (l : List α)
    (hlen : l.length ≤ 16) (hsome : ∀ x ∈ l, ∀ y ∈ l, (comp x y).isSome = true) :
    ∃ out, gnuSort comp l = some out ∧ out.Perm l := by
  unfold gnuSort
  cases l with
  | nil => exact ⟨[], rfl, List.Perm.refl _⟩
  | cons x r =>
    rw [if_neg (by simp)]
    have hloop : introsortLoop comp (lg (x :: r).length (x :: r).length * 2) 0
        (x :: r).length (x :: r) = some (x :: r) := by
      cases lg (x :: r).length (x :: r).length * 2 with
      | zero => rw [introsortLoop, if_neg (by omega)]
      | succ d => rw [introsortLoop, if_neg (by omega)]
    rw [hloop]
    simp only
    unfold finalInsertionSort
    rw [if_neg (by omega)]
    unfold insertionSort
    rw [if_neg (by simp)]
    obtain ⟨q, hq, hqp⟩ := insertionSort_loop_perm comp r [x] [] (by simp)
      (by simpa using hsome)
    refine ⟨q, ?_, by simpa using hqp⟩
    simpa using hq

/-! ### The restore -/

theorem strictlyOrdered_of_pairwise {α : Type} (comp : α → α → Option Bool) (l : List α)
    (h : l.Pairwise (fun x y => comp x y = some true ∧ comp y x = some false)) :
    strictlyOrdered comp l = true := by
  induction l with
  | nil => rfl
  | cons x rest ih =>
    rw [List.pairwise_cons] at h
    rw [strictlyOrdered, Bool.and_eq_true, List.all_eq_true]
    refine ⟨fun y hy => ?_, ih h.2⟩
    obtain ⟨h1, h2⟩ := h.1 y hy
    simp [h1, h2]

/-- While liveness is stable the loop re-applies exactly the records that were
live at its start, in list order. -/
theorem restoreLoop_eq_foldl {σ : Type} (api : WinAPI σ) (hst : LivenessStable api)
    (s0 : σ) : ∀ (l : List WindowInfo) (s : σ),
      (∀ h, api.IsWindow s h = api.IsWindow s0 h) →
      restoreLoop api s l
        = (l.filter (fun r => api.IsWindow s0 r.hWnd)).foldl (applyPlacement api) s := by
  intro l
  induction l with
  | nil => intro s _; rfl
  | cons info rest ih =>
    intro s hs
    rw [restoreLoop, List.filter_cons, hs info.hWnd]
    cases hlive : api.IsWindow s0 info.hWnd
    · simpa using ih s hs
    · simp only [if_true, List.foldl_cons]
      apply ih
      intro h
      rw [hst.2, hst.1, hs h]

theorem deskApi_LivenessStable (owned3 : Bool) (closed : List HWND) :
    LivenessStable (deskApi owned3 closed) :=
  ⟨fun _ _ _ _ => rfl, fun _ _ _ => rfl⟩

theorem deskApi_IsZChain : IsZChain (deskApi false []) ⟨[], []⟩ [1, 2, 3] = true := by
  decide

/-- Claim C2: when the inventory, captured front to back, holds live windows
that the chain consulted by the sort still lists in that order (so they are
distinct), `RestoreWindows` re-applies the placements in the reverse of
inventory order: the backmost window first, the frontmost last. -/
theorem RestoreWindows_back_to_front {σ : Type} (api : WinAPI σ) (fuel : Nat)
    (st : State σ) (zs : List HWND) (hst : LivenessStable api)
    (hchain : IsZChain api st.os zs = true) (hfuel : zs.length ≤ fuel)
    (hsub : (st.windowList.map (fun r => r.hWnd)).Sublist zs)
    (hlive : ∀ r ∈ st.windowList, api.IsWindow st.os r.hWnd = true) :
    RestoreWindows api fuel st
      = some { os := st.windowList.reverse.foldl (applyPlacement api) st.os,
               windowList := [], g_hMainWnd := st.g_hMainWnd } := by
  have hpair : (st.windowList.map (fun r => r.hWnd)).Pairwise (Settled api st.os fuel) :=
    (pairwise_Settled_of_IsZChain api st.os fuel zs hchain hfuel).sublist hsub
  rw [List.pairwise_map] at hpair
  have hch : List.Chain' (fun x y : WindowInfo =>
      CompareZOrder api st.os fuel y.hWnd x.hWnd = some true) st.windowList :=
    (hpair.imp (fun h => h.2)).chain'
  have hord : strictlyOrdered
      (fun a b : WindowInfo => CompareZOrder api st.os fuel a.hWnd b.hWnd)
      st.windowList.reverse = true :=
    strictlyOrdered_of_pairwise _ _
      (List.pairwise_reverse.mpr (hpair.imp (fun h => ⟨h.2, h.1⟩)))
  have hsort : stdSort (fun a b : WindowInfo => CompareZOrder api st.os fuel a.hWnd b.hWnd)
      st.windowList = some st.windowList.reverse :=
    gnuSort_of_strictlyOrdered _ _ _ (List.reverse_perm st.windowList).symm hord
  have hall : st.windowList.reverse.filter (fun r => api.IsWindow st.os r.hWnd)
      = st.windowList.reverse :=
    List.filter_eq_self.mpr (fun r hr => hlive r (List.mem_reverse.mp hr))
  unfold RestoreWindows
  rw [hsort]
  simp only
  rw [restoreLoop_eq_foldl api hst st.os st.windowList.reverse st.os (fun _ => rfl), hall]

/-- Witness for C2: windows A = 1 (topmost), B = 2, C = 3 (bottom) of the test
desktop are restored in the order C, B, A. -/
theorem RestoreWindows_back_to_front_witness :
    LivenessStable (deskApi false [])
      ∧ IsZChain (deskApi false []) (⟨[], []⟩ : Desk) [1, 2, 3] = true
      ∧ ([deskInfo 1, deskInfo 2, deskInfo 3].map (fun r => r.hWnd)).Sublist [1, 2, 3]
      ∧ (∀ r ∈ [deskInfo 1, deskInfo 2, deskInfo 3],
          (deskApi false []).IsWindow ⟨[], []⟩ r.hWnd = true)
      ∧ RestoreWindows (deskApi false []) 3
          { os := ⟨[], []⟩, windowList := [deskInfo 1, deskInfo 2, deskInfo 3],
            g_hMainWnd := 5 }
        = some { os := [deskInfo 3, deskInfo 2, deskInfo 1].foldl
                   (applyPlacement (deskApi false [])) ⟨[], []⟩,
                 windowList := [], g_hMainWnd := 5 } :=
  ⟨deskApi_LivenessStable false [], deskApi_IsZChain, by decide, by decide,
    RestoreWindows_back_to_front (deskApi false []) 3
      { os := ⟨[], []⟩, windowList := [deskInfo 1, deskInfo 2, deskInfo 3], g_hMainWnd := 5 }
      [1, 2, 3] (deskApi_LivenessStable false []) deskApi_IsZChain (by decide) (by decide)
      (by decide)⟩

/-- The restore of an inventory of at most 16 records, whichever windows are
still alive: it completes and re-applies a placement to exactly the records
whose handle is a live window, once per record and with the placement captured
in that record. -/
theorem RestoreWindows_skips_closed_upto16 {σ : Type} (api : WinAPI σ) (fuel : Nat)
    (st : State σ) (hst : LivenessStable api) (hlen : st.windowList.length ≤ 16)
    (hfin : ∀ r ∈ st.windowList, chainEndsWithin api st.os fuel r.hWnd = true) :
    ∃ order : List WindowInfo,
      order.Perm (st.windowList.filter (fun r => api.IsWindow st.os r.hWnd))
        ∧ RestoreWindows api fuel st
          = some { os := order.foldl (applyPlacement api) st.os,
                   windowList := [], g_hMainWnd := st.g_hMainWnd } := by
  obtain ⟨sorted, hsorted, hperm⟩ := gnuSort_perm_of_short
    (fun a b : WindowInfo => CompareZOrder api st.os fuel a.hWnd b.hWnd) st.windowList hlen
    (fun a ha b _ => by
      show (CompareZOrder api st.os fuel a.hWnd b.hWnd).isSome = true
      rw [CompareZOrder_of_chainEnds api st.os fuel fuel a.hWnd b.hWnd (hfin a ha) (Nat.le_refl _)]
      rfl)
  refine ⟨sorted.filter (fun r => api.IsWindow st.os r.hWnd), hperm.filter _, ?_⟩
  unfold RestoreWindows stdSort
  rw [hsorted]
  simp only
  rw [restoreLoop_eq_foldl api hst st.os sorted st.os (fun _ => rfl)]

/-- With an empty inventory `RestoreWindows` returns the state unchanged,
whatever the fuel. -/
theorem RestoreWindows_of_empty {σ : Type} (api : WinAPI σ) (fuel : Nat) (st : State σ) :
    RestoreWindows api fuel { st with windowList := [] } = some { st with windowList := [] } :=
  rfl

/-- Whenever `RestoreWindows` returns, the inventory is empty and a second call
is a no-op. -/
theorem RestoreWindows_cleared {σ : Type} (api : WinAPI σ) (fuel : Nat) (st st1 : State σ)
    (h : RestoreWindows api fuel st = some st1) :
    st1.windowList = [] ∧ ∀ fuel2, RestoreWindows api fuel2 st1 = some st1 := by
  unfold RestoreWindows at h
  split at h
  · simp at h
  · simp only [Option.some.injEq] at h
    subst h
    exact ⟨rfl, fun _ => rfl⟩

theorem Settled_asymm {σ : Type} (api : WinAPI σ) (s : σ) (fuel : Nat) (a b : HWND)
    (h1 : Settled api s fuel a b) (h2 : Settled api s fuel b a) : False := by
  have h := h1.1.symm.trans h2.2
  simp at h

/-- Whatever algorithm the library sorts with: if its output is a rearrangement
of the inventory in which no later record compares before an earlier one, and
the chain lists the inventoried windows in inventory order, then the output is
the inventory reversed. -/
theorem sorted_output_eq_reverse {σ : Type} (api : WinAPI σ) (s : σ) (fuel : Nat)
    (inv out : List WindowInfo) (zs : List HWND) (hchain : IsZChain api s zs = true)
    (hfuel : zs.length ≤ fuel) (hsub : (inv.map (fun r => r.hWnd)).Sublist zs)
    (hperm : out.Perm inv)
    (hsorted : out.Pairwise (fun x y => CompareZOrder api s fuel y.hWnd x.hWnd = some false)) :
    out = inv.reverse := by
  have hpair : (inv.map (fun r => r.hWnd)).Pairwise (Settled api s fuel) :=
    (pairwise_Settled_of_IsZChain api s fuel zs hchain hfuel).sublist hsub
  rw [List.pairwise_map] at hpair
  have hsym : inv.Pairwise (fun x y => Settled api s fuel x.hWnd y.hWnd
      ∨ Settled api s fuel y.hWnd x.hWnd) := hpair.imp (fun h => Or.inl h)
  have hall := List.Pairwise.forall (fun x y h => Or.symm h) hsym
  have hinv : inv.Nodup := by
    refine List.Pairwise.imp ?_ hpair
    intro x y h e
    subst e
    exact Settled_asymm api s fuel _ _ h h
  have hnodup : out.Nodup := hperm.nodup_iff.mpr hinv
  have hout : out.Pairwise (fun x y => Settled api s fuel y.hWnd x.hWnd) := by
    refine List.Pairwise.imp_of_mem ?_ (hsorted.and hnodup)
    intro x y hx hy hxy
    rcases hall (hperm.subset hx) (hperm.subset hy) hxy.2 with h | h
    · have h2 := hxy.1.symm.trans h.2
      simp at h2
    · exact h
  have hrev : inv.reverse.Pairwise (fun x y => Settled api s fuel y.hWnd x.hWnd) :=
    List.pairwise_reverse.mpr hpair
  have hanti : IsAntisymm WindowInfo (fun x y => Settled api s fuel y.hWnd x.hWnd) :=
    ⟨fun _ _ h1 h2 => (Settled_asymm api s fuel _ _ h1 h2).elim⟩
  exact List.eq_of_perm_of_sorted (hperm.trans (List.reverse_perm inv).symm) hout hrev

/-- Whatever rearrangement of the inventory the library's sort hands to the
loop, the loop re-applies a rearrangement of the live records. -/
theorem restoreLoop_of_perm {σ : Type} (api : WinAPI σ) (hst : LivenessStable api) (s : σ)
    (inv sorted : List WindowInfo) (hperm : sorted.Perm inv) :
    ∃ order : List WindowInfo,
      order.Perm (inv.filter (fun r => api.IsWindow s r.hWnd))
        ∧ restoreLoop api s sorted = order.foldl (applyPlacement api) s :=
  ⟨sorted.filter (fun r => api.IsWindow s r.hWnd), hperm.filter _,
    restoreLoop_eq_foldl api hst s sorted s (fun _ => rfl)⟩

/-- The end-to-end scenario: of three visible windows of 300 by 200, 50 by 50
and 120 by 60 with an owner, only the first is inventoried, and the previous
inventory is gone. -/
theorem MinimizeForScreenshot_scenario :
    (MinimizeForScreenshot (deskApi true []) [1, 2, 3]
        { os := ⟨[], []⟩, windowList := [deskInfo 7], g_hMainWnd := 5 }).windowList
      = [deskInfo 1] := by
  decide

/-- The placement calls of the three-window restore, in the order issued:
C, B, A; with B closed: C, A. -/
theorem RestoreWindows_scenario :
    (RestoreWindows (deskApi false []) 3
        { os := ⟨[], []⟩, windowList := [deskInfo 1, deskInfo 2, deskInfo 3],
          g_hMainWnd := 5 }).map (fun st => st.os.placed.map (fun c => c.1))
      = some [3, 2, 1]
    ∧ (RestoreWindows (deskApi false [2]) 3
        { os := ⟨[], []⟩, windowList := [deskInfo 1, deskInfo 2, deskInfo 3],
          g_hMainWnd := 5 }).map (fun st => st.os.placed.map (fun c => c.1))
      = some [3, 1] := by
  decide

end WinMinimizer
